import Mathlib

/-!
Verification of the `llrruu` LRU cache (package `lru`).

The embedding models the richest revision of the repository
(`Memoria` with an `RWMutex`, a bounded recency-event channel, a
`closed` flag and a `sync.Once`-guarded `Close`).  Claims are settled
against a sequential semantics: each exported operation, plus one
iteration of the background `processEvents` loop, is a state
transformer on an explicit cache state.

Go's `container/list` is embedded faithfully: list elements live in an
arena indexed by natural-number handles, each element carries its
`prev`/`next` pointers and its `list != nil` membership flag, and the
sentinel root's `next`/`prev` pointers are part of the cache state.
Crucially, `(*List).Init` (used by `Clear`) only resets the root
pointers and the list length; it leaves previously linked elements
with their stale pointers and with `e.list` still pointing at the
list, exactly as in the Go standard library.
-/

set_option linter.unusedSectionVars false

namespace LruSpec

/-- A pointer into the embedded `container/list` heap: the nil pointer,
the address of the list's sentinel root, or the address of the element
with the given arena handle. -/
inductive Ptr where
  | null : Ptr
  | root : Ptr
  | node : Nat → Ptr
deriving DecidableEq, Repr

/-- A `list.Element` whose `Value` is the cache's `entry[K, V]`:
`prevP`/`nextP` are `e.prev`/`e.next`, `inList` records whether
`e.list` equals the cache's list (Go sets `e.list = nil` on removal),
and `key`/`value` are the fields of the stored `entry`. -/
structure Elem (K V : Type) where
  prevP : Ptr
  nextP : Ptr
  inList : Bool
  key : K
  value : V
deriving DecidableEq, Repr

/-- The state of a `Memoria[K, V]` cache, together with the state of
its background tracker: `rootPrev`/`rootNext`/`llen` embed the
`container/list` sentinel and its `len` field, `arena` is the heap of
allocated elements, `ch` is the bounded recency-event channel (a FIFO
of element handles), `doneClosed` records whether the `done` channel
has been closed, and `onceDone` whether the `sync.Once` has fired.
`stopped` records that the `processEvents` goroutine has returned. -/
structure Memoria (K V : Type) where
  capacity : Int
  dict : List (K × Nat)
  rootPrev : Ptr
  rootNext : Ptr
  llen : Nat
  arena : List (Elem K V)
  len : Int
  ch : List Nat
  doneClosed : Bool
  closed : Bool
  onceDone : Bool
  stopped : Bool
deriving DecidableEq, Repr

variable {K V : Type} [DecidableEq K] [Inhabited K] [Inhabited V]

instance : Inhabited (Elem K V) :=
  ⟨⟨Ptr.null, Ptr.null, false, default, default⟩⟩

/-- Dereference an element handle.  Reachable executions only
dereference live handles; the default is never observed there. -/
def getE (s : Memoria K V) (h : Nat) : Elem K V :=
  s.arena.getD h default

/-- Replace the element at handle `h` (no-op when out of range, which
reachable executions never do). -/
def setE (s : Memoria K V) (h : Nat) (e : Elem K V) : Memoria K V :=
  { s with arena := s.arena.set h e }

/-- Read the `next` pointer stored at a pointer target (`root.next`
for the sentinel). -/
def ptrNext (s : Memoria K V) (p : Ptr) : Ptr :=
  match p with
  | Ptr.null => Ptr.null
  | Ptr.root => s.rootNext
  | Ptr.node h => (getE s h).nextP

/-- Read the `prev` pointer stored at a pointer target. -/
def ptrPrev (s : Memoria K V) (p : Ptr) : Ptr :=
  match p with
  | Ptr.null => Ptr.null
  | Ptr.root => s.rootPrev
  | Ptr.node h => (getE s h).prevP

/-- `p.next = v`: write the `next` field of the pointer target.
Writing through nil would fault in Go; it is unreachable here. -/
def setNextOf (s : Memoria K V) (p v : Ptr) : Memoria K V :=
  match p with
  | Ptr.null => s
  | Ptr.root => { s with rootNext := v }
  | Ptr.node h => setE s h { getE s h with nextP := v }

/-- `p.prev = v`: write the `prev` field of the pointer target. -/
def setPrevOf (s : Memoria K V) (p v : Ptr) : Memoria K V :=
  match p with
  | Ptr.null => s
  | Ptr.root => { s with rootPrev := v }
  | Ptr.node h => setE s h { getE s h with prevP := v }

/-- Go map lookup `m.dict[key]` on the association-list embedding of
the `map[K]*list.Element`. -/
def dlookup (k : K) : List (K × Nat) → Option Nat
  | [] => none
  | (k₁, h) :: t => if k₁ = k then some h else dlookup k t

/-- Go map assignment `m.dict[key] = ele`: overwrite the binding if the
key is present, otherwise add it. -/
def mapSet (k : K) (h : Nat) : List (K × Nat) → List (K × Nat)
  | [] => [(k, h)]
  | (k₁, h₁) :: t => if k₁ = k then (k, h) :: t else (k₁, h₁) :: mapSet k h t

/-- Go `delete(m.dict, key)`. -/
def ddelete (k : K) (d : List (K × Nat)) : List (K × Nat) :=
  d.filter (fun p => p.1 ≠ k)

/-- Buffer size of the recency-event channel (`make(chan *list.Element, 1024)`). -/
def chanCap : Nat := 1024

/-- `list.Element.Prev()`: returns `e.prev` when `e.list != nil` and
`e.prev` is not the sentinel root, and nil otherwise. -/
def elemPrev (s : Memoria K V) (h : Nat) : Ptr :=
  if (getE s h).inList then
    match (getE s h).prevP with
    | Ptr.root => Ptr.null
    | p => p
  else Ptr.null

/-- `(*List).MoveToFront(e)`, line for line from `container/list`:
no-op when `e.list != l` or `e` is already at the front, otherwise
`move(e, &l.root)` — unlink `e`, then re-insert it after the root. -/
def moveToFront (s : Memoria K V) (h : Nat) : Memoria K V :=
  if (getE s h).inList = false then s
  else if s.rootNext = Ptr.node h then s
  else
    -- move(e, &l.root):
    -- e.prev.next = e.next
    let s₁ := setNextOf s (getE s h).prevP (getE s h).nextP
    -- e.next.prev = e.prev
    let s₂ := setPrevOf s₁ (getE s₁ h).nextP (getE s₁ h).prevP
    -- e.prev = at  (at = &l.root)
    let s₃ := setE s₂ h { getE s₂ h with prevP := Ptr.root }
    -- e.next = at.next
    let s₄ := setE s₃ h { getE s₃ h with nextP := s₃.rootNext }
    -- e.prev.next = e
    let s₅ := setNextOf s₄ (getE s₄ h).prevP (Ptr.node h)
    -- e.next.prev = e
    setPrevOf s₅ (getE s₅ h).nextP (Ptr.node h)

/-- `(*List).PushFront` of a fresh `entry{key, value}`: allocate the
element at the next arena handle and `insert(e, &l.root)`.  Returns
the new state and the new element's handle. -/
def pushFront (s : Memoria K V) (k : K) (v : V) : Memoria K V × Nat :=
  let n := s.arena.length
  -- insert(e, at): e.prev = at; e.next = at.next; e.list = l
  let s₁ := { s with arena := s.arena ++ [(⟨Ptr.root, s.rootNext, true, k, v⟩ : Elem K V)] }
  -- e.prev.next = e  (e.prev = &l.root)
  let s₂ := { s₁ with rootNext := Ptr.node n }
  -- e.next.prev = e
  let s₃ := setPrevOf s₂ (getE s₂ n).nextP (Ptr.node n)
  ({ s₃ with llen := s₃.llen + 1 }, n)

/-- `(*List).remove(e)` followed by the bookkeeping of `List.Remove`:
unlink `e`, clear its pointers and its `list` field, decrement the
list length. -/
def removeElem (s : Memoria K V) (h : Nat) : Memoria K V :=
  -- e.prev.next = e.next
  let s₁ := setNextOf s (getE s h).prevP (getE s h).nextP
  -- e.next.prev = e.prev
  let s₂ := setPrevOf s₁ (getE s₁ h).nextP (getE s₁ h).prevP
  -- e.next = nil; e.prev = nil; e.list = nil
  let s₃ := setE s₂ h { getE s₂ h with prevP := Ptr.null, nextP := Ptr.null, inList := false }
  { s₃ with llen := s₃.llen - 1 }

/-- `Memoria.evict`: remove the `Back()` element from the list and
from the index, and decrement the entry count.  `Back()` is nil when
the list length is zero.  (`Back()` can only denote the sentinel in
states whose pointer structure is already corrupted; Go would fault on
the `Value` cast there, and no modelled execution reaches it.) -/
def evict (s : Memoria K V) : Memoria K V :=
  if s.llen = 0 then s
  else
    match s.rootPrev with
    | Ptr.node h =>
        let k := (getE s h).key
        let s₁ := if (getE s h).inList then removeElem s h else s
        { s₁ with dict := ddelete k s₁.dict, len := s₁.len - 1 }
    | _ => s

/-- `New(capacity)`: fails when `capacity <= 0`, otherwise returns the
empty open cache (the `processEvents` goroutine is modelled by the
explicit `processOneEvent`/`processDone` steps). -/
def New (c : Int) : Except String (Memoria K V) :=
  if c ≤ 0 then Except.error "capacity must be greater than 0"
  else Except.ok
    { capacity := c, dict := [], rootPrev := Ptr.root, rootNext := Ptr.root,
      llen := 0, arena := [], len := 0, ch := [], doneClosed := false,
      closed := false, onceDone := false, stopped := false }

/-- `Memoria.Get`: under the read lock, return not-found when closed
or when the key is absent; otherwise try to enqueue a recency event —
the `done` branch of the `select` returns not-found, a full channel is
skipped silently — and return the stored value.  (When `done` is
closed and the channel also has space Go picks a ready `select` case
at random; the model takes the `done` branch.  In sequential
executions `doneClosed` implies `closed`, so the choice is never
exercised.) -/
def Get (k : K) (s : Memoria K V) : (V × Bool) × Memoria K V :=
  if s.closed then ((default, false), s)
  else
    match dlookup k s.dict with
    | none => ((default, false), s)
    | some h =>
        if s.doneClosed then ((default, false), s)
        else if s.ch.length < chanCap then
          (((getE s h).value, true), { s with ch := s.ch ++ [h] })
        else
          (((getE s h).value, true), s)

/-- `Memoria.Put`: no-op when closed; overwrite and `MoveToFront` when
the key exists; otherwise push a fresh element at the front, add it to
the index, increment the length, and evict when over capacity. -/
def Put (k : K) (v : V) (s : Memoria K V) : Memoria K V :=
  if s.closed then s
  else
    match dlookup k s.dict with
    | some h =>
        let s₁ := moveToFront s h
        setE s₁ h { getE s₁ h with value := v }
    | none =>
        let p := pushFront s k v
        let s₂ : Memoria K V := { p.1 with dict := mapSet k p.2 p.1.dict, len := p.1.len + 1 }
        if s₂.capacity < s₂.len then evict s₂ else s₂

/-- `Memoria.Clear`: no-op when closed; otherwise reset the index and
`m.ll.Init()` — which only resets the sentinel pointers and the list
length, leaving previously linked elements with their stale pointers
and `e.list` intact — and set the length to zero. -/
def Clear (s : Memoria K V) : Memoria K V :=
  if s.closed then s
  else { s with dict := [], rootPrev := Ptr.root, rootNext := Ptr.root, llen := 0, len := 0 }

/-- `Memoria.Len`: returns `m.len`. -/
def Len (s : Memoria K V) : Int :=
  s.len

/-- `Memoria.Keys` traversal: `for e := l.Back(); e != nil; e = e.Prev()`,
appending each visited key.  The fuel bound exceeds the length of any
acyclic pointer chain in the arena; Go itself would not terminate on a
cyclic chain, and no evaluated state has one. -/
def keysAux (s : Memoria K V) : Nat → Ptr → List K → List K
  | _, Ptr.null, acc => acc
  | _, Ptr.root, acc => acc
  | 0, Ptr.node _, acc => acc
  | fuel + 1, Ptr.node h, acc => keysAux s fuel (elemPrev s h) (acc ++ [(getE s h).key])

/-- `Memoria.Keys`: nil when closed; otherwise the keys from the back
of the list to the front (least- to most-recently-used). -/
def Keys (s : Memoria K V) : List K :=
  if s.closed then []
  else keysAux s (s.arena.length + 1) (if s.llen = 0 then Ptr.null else s.rootPrev) []

/-- `Memoria.Close`: the `sync.Once` guard runs the shutdown body —
set `closed`, close `done` — at most once. -/
def Close (s : Memoria K V) : Memoria K V :=
  if s.onceDone then s
  else { s with closed := true, doneClosed := true, onceDone := true }

/-- One iteration of the `processEvents` loop taking the event branch:
receive a handle from the channel and, if `ele.Prev() != nil`,
`MoveToFront` it.  After the goroutine has returned no event is
processed (in Go the loop has exited and `m.ch` is nil). -/
def processOneEvent (s : Memoria K V) : Memoria K V :=
  if s.stopped then s
  else
    match s.ch with
    | [] => s
    | h :: rest =>
        let s₁ := { s with ch := rest }
        if elemPrev s₁ h = Ptr.null then s₁ else moveToFront s₁ h

/-- The `done` branch of the `processEvents` loop: drop the channel,
the index and the length, and return.  (Go also drops the `m.ll`
reference; every list access is guarded by `closed`, which is already
set when `done` is closed, so this is unobservable.) -/
def processDone (s : Memoria K V) : Memoria K V :=
  if s.stopped then s
  else if s.doneClosed then { s with ch := [], dict := [], len := 0, stopped := true }
  else s

/-! ### Basic lemmas about the heap embedding -/

/-- A pointer that may be written through: the sentinel root or a
live arena handle. -/
def PtrOk (s : Memoria K V) : Ptr → Prop
  | Ptr.null => False
  | Ptr.root => True
  | Ptr.node h => h < s.arena.length

theorem getE_setE (s : Memoria K V) (h : Nat) (e : Elem K V) (i : Nat) :
    getE (setE s h e) i = if i = h ∧ h < s.arena.length then e else getE s i := by
  simp only [getE, setE, List.getD_eq_getElem?_getD]
  rw [List.getElem?_set]
  rcases Decidable.em (h = i) with rfl | hne
  · rcases Decidable.em (h < s.arena.length) with hlt | hge
    · simp [hlt]
    · have hnone : s.arena[h]? = none := by
        rw [List.getElem?_eq_none_iff]
        omega
      simp [hge, hnone]
  · rw [if_neg hne]
    have hniff : ¬(i = h ∧ h < s.arena.length) := fun hc => hne hc.1.symm
    simp [hniff]

@[simp] theorem setE_dict (s : Memoria K V) (h : Nat) (e : Elem K V) :
    (setE s h e).dict = s.dict := rfl

@[simp] theorem setE_arena_length (s : Memoria K V) (h : Nat) (e : Elem K V) :
    (setE s h e).arena.length = s.arena.length := by
  simp [setE]

@[simp] theorem setE_rootPrev (s : Memoria K V) (h : Nat) (e : Elem K V) :
    (setE s h e).rootPrev = s.rootPrev := rfl

@[simp] theorem setE_rootNext (s : Memoria K V) (h : Nat) (e : Elem K V) :
    (setE s h e).rootNext = s.rootNext := rfl

@[simp] theorem setE_llen (s : Memoria K V) (h : Nat) (e : Elem K V) :
    (setE s h e).llen = s.llen := rfl

@[simp] theorem setE_len (s : Memoria K V) (h : Nat) (e : Elem K V) :
    (setE s h e).len = s.len := rfl

@[simp] theorem setE_capacity (s : Memoria K V) (h : Nat) (e : Elem K V) :
    (setE s h e).capacity = s.capacity := rfl

@[simp] theorem setE_closed (s : Memoria K V) (h : Nat) (e : Elem K V) :
    (setE s h e).closed = s.closed := rfl

@[simp] theorem setE_doneClosed (s : Memoria K V) (h : Nat) (e : Elem K V) :
    (setE s h e).doneClosed = s.doneClosed := rfl

@[simp] theorem setE_ch (s : Memoria K V) (h : Nat) (e : Elem K V) :
    (setE s h e).ch = s.ch := rfl

@[simp] theorem setE_onceDone (s : Memoria K V) (h : Nat) (e : Elem K V) :
    (setE s h e).onceDone = s.onceDone := rfl

@[simp] theorem setE_stopped (s : Memoria K V) (h : Nat) (e : Elem K V) :
    (setE s h e).stopped = s.stopped := rfl

theorem setNextOf_null (s : Memoria K V) (v : Ptr) : setNextOf s Ptr.null v = s := rfl

theorem setPrevOf_null (s : Memoria K V) (v : Ptr) : setPrevOf s Ptr.null v = s := rfl

@[simp] theorem setNextOf_dict (s : Memoria K V) (p v : Ptr) :
    (setNextOf s p v).dict = s.dict := by cases p <;> rfl

@[simp] theorem setPrevOf_dict (s : Memoria K V) (p v : Ptr) :
    (setPrevOf s p v).dict = s.dict := by cases p <;> rfl

@[simp] theorem setNextOf_arena_length (s : Memoria K V) (p v : Ptr) :
    (setNextOf s p v).arena.length = s.arena.length := by
  cases p <;> simp [setNextOf]

@[simp] theorem setPrevOf_arena_length (s : Memoria K V) (p v : Ptr) :
    (setPrevOf s p v).arena.length = s.arena.length := by
  cases p <;> simp [setPrevOf]

@[simp] theorem setNextOf_llen (s : Memoria K V) (p v : Ptr) :
    (setNextOf s p v).llen = s.llen := by cases p <;> rfl

@[simp] theorem setPrevOf_llen (s : Memoria K V) (p v : Ptr) :
    (setPrevOf s p v).llen = s.llen := by cases p <;> rfl

@[simp] theorem setNextOf_len (s : Memoria K V) (p v : Ptr) :
    (setNextOf s p v).len = s.len := by cases p <;> rfl

@[simp] theorem setPrevOf_len (s : Memoria K V) (p v : Ptr) :
    (setPrevOf s p v).len = s.len := by cases p <;> rfl

@[simp] theorem setNextOf_capacity (s : Memoria K V) (p v : Ptr) :
    (setNextOf s p v).capacity = s.capacity := by cases p <;> rfl

@[simp] theorem setPrevOf_capacity (s : Memoria K V) (p v : Ptr) :
    (setPrevOf s p v).capacity = s.capacity := by cases p <;> rfl

@[simp] theorem setNextOf_closed (s : Memoria K V) (p v : Ptr) :
    (setNextOf s p v).closed = s.closed := by cases p <;> rfl

@[simp] theorem setPrevOf_closed (s : Memoria K V) (p v : Ptr) :
    (setPrevOf s p v).closed = s.closed := by cases p <;> rfl

@[simp] theorem setNextOf_doneClosed (s : Memoria K V) (p v : Ptr) :
    (setNextOf s p v).doneClosed = s.doneClosed := by cases p <;> rfl

@[simp] theorem setPrevOf_doneClosed (s : Memoria K V) (p v : Ptr) :
    (setPrevOf s p v).doneClosed = s.doneClosed := by cases p <;> rfl

@[simp] theorem setNextOf_ch (s : Memoria K V) (p v : Ptr) :
    (setNextOf s p v).ch = s.ch := by cases p <;> rfl

@[simp] theorem setPrevOf_ch (s : Memoria K V) (p v : Ptr) :
    (setPrevOf s p v).ch = s.ch := by cases p <;> rfl

@[simp] theorem setNextOf_onceDone (s : Memoria K V) (p v : Ptr) :
    (setNextOf s p v).onceDone = s.onceDone := by cases p <;> rfl

@[simp] theorem setPrevOf_onceDone (s : Memoria K V) (p v : Ptr) :
    (setPrevOf s p v).onceDone = s.onceDone := by cases p <;> rfl

@[simp] theorem setNextOf_stopped (s : Memoria K V) (p v : Ptr) :
    (setNextOf s p v).stopped = s.stopped := by cases p <;> rfl

@[simp] theorem setPrevOf_stopped (s : Memoria K V) (p v : Ptr) :
    (setPrevOf s p v).stopped = s.stopped := by cases p <;> rfl

theorem ptrNext_setNextOf (s : Memoria K V) (p v : Ptr) (hp : PtrOk s p) (q : Ptr) :
    ptrNext (setNextOf s p v) q = if q = p then v else ptrNext s q := by
  cases p with
  | null => exact absurd hp (by simp [PtrOk])
  | root =>
      cases q with
      | null => simp [ptrNext, setNextOf]
      | root => simp [ptrNext, setNextOf]
      | node i => simp [ptrNext, setNextOf, getE]
  | node h =>
      cases q with
      | null => simp [ptrNext, setNextOf]
      | root => simp [ptrNext, setNextOf]
      | node i =>
          simp only [ptrNext, setNextOf]
          rw [getE_setE]
          rcases Decidable.em (i = h) with rfl | hne
          · simp [PtrOk] at hp
            simp [hp]
          · simp [hne, Ptr.node.injEq]

theorem ptrPrev_setNextOf (s : Memoria K V) (p v : Ptr) (q : Ptr) :
    ptrPrev (setNextOf s p v) q = ptrPrev s q := by
  cases p with
  | null => rfl
  | root => cases q <;> simp [ptrPrev, setNextOf, getE]
  | node h =>
      cases q with
      | null => rfl
      | root => rfl
      | node i =>
          simp only [ptrPrev, setNextOf]
          rw [getE_setE]
          rcases Decidable.em (i = h ∧ h < s.arena.length) with hcase | hcase
          · rcases hcase with ⟨rfl, _⟩
            simp_all
          · simp [hcase]

theorem ptrPrev_setPrevOf (s : Memoria K V) (p v : Ptr) (hp : PtrOk s p) (q : Ptr) :
    ptrPrev (setPrevOf s p v) q = if q = p then v else ptrPrev s q := by
  cases p with
  | null => exact absurd hp (by simp [PtrOk])
  | root =>
      cases q with
      | null => simp [ptrPrev, setPrevOf]
      | root => simp [ptrPrev, setPrevOf]
      | node i => simp [ptrPrev, setPrevOf, getE]
  | node h =>
      cases q with
      | null => simp [ptrPrev, setPrevOf]
      | root => simp [ptrPrev, setPrevOf]
      | node i =>
          simp only [ptrPrev, setPrevOf]
          rw [getE_setE]
          rcases Decidable.em (i = h) with rfl | hne
          · simp [PtrOk] at hp
            simp [hp]
          · simp [hne, Ptr.node.injEq]

theorem ptrNext_setPrevOf (s : Memoria K V) (p v : Ptr) (q : Ptr) :
    ptrNext (setPrevOf s p v) q = ptrNext s q := by
  cases p with
  | null => rfl
  | root => cases q <;> simp [ptrNext, setPrevOf, getE]
  | node h =>
      cases q with
      | null => rfl
      | root => rfl
      | node i =>
          simp only [ptrNext, setPrevOf]
          rw [getE_setE]
          rcases Decidable.em (i = h ∧ h < s.arena.length) with hcase | hcase
          · rcases hcase with ⟨rfl, _⟩
            simp_all
          · simp [hcase]

theorem getE_key_setNextOf (s : Memoria K V) (p v : Ptr) (i : Nat) :
    (getE (setNextOf s p v) i).key = (getE s i).key := by
  cases p with
  | null => rfl
  | root => rfl
  | node h =>
      simp only [setNextOf]
      rw [getE_setE]
      rcases Decidable.em (i = h ∧ h < s.arena.length) with hcase | hcase
      · rcases hcase with ⟨rfl, _⟩
        simp_all
      · simp [hcase]

theorem getE_key_setPrevOf (s : Memoria K V) (p v : Ptr) (i : Nat) :
    (getE (setPrevOf s p v) i).key = (getE s i).key := by
  cases p with
  | null => rfl
  | root => rfl
  | node h =>
      simp only [setPrevOf]
      rw [getE_setE]
      rcases Decidable.em (i = h ∧ h < s.arena.length) with hcase | hcase
      · rcases hcase with ⟨rfl, _⟩
        simp_all
      · simp [hcase]

theorem getE_value_setNextOf (s : Memoria K V) (p v : Ptr) (i : Nat) :
    (getE (setNextOf s p v) i).value = (getE s i).value := by
  cases p with
  | null => rfl
  | root => rfl
  | node h =>
      simp only [setNextOf]
      rw [getE_setE]
      rcases Decidable.em (i = h ∧ h < s.arena.length) with hcase | hcase
      · rcases hcase with ⟨rfl, _⟩
        simp_all
      · simp [hcase]

theorem getE_value_setPrevOf (s : Memoria K V) (p v : Ptr) (i : Nat) :
    (getE (setPrevOf s p v) i).value = (getE s i).value := by
  cases p with
  | null => rfl
  | root => rfl
  | node h =>
      simp only [setPrevOf]
      rw [getE_setE]
      rcases Decidable.em (i = h ∧ h < s.arena.length) with hcase | hcase
      · rcases hcase with ⟨rfl, _⟩
        simp_all
      · simp [hcase]

theorem getE_inList_setNextOf (s : Memoria K V) (p v : Ptr) (i : Nat) :
    (getE (setNextOf s p v) i).inList = (getE s i).inList := by
  cases p with
  | null => rfl
  | root => rfl
  | node h =>
      simp only [setNextOf]
      rw [getE_setE]
      rcases Decidable.em (i = h ∧ h < s.arena.length) with hcase | hcase
      · rcases hcase with ⟨rfl, _⟩
        simp_all
      · simp [hcase]

theorem getE_inList_setPrevOf (s : Memoria K V) (p v : Ptr) (i : Nat) :
    (getE (setPrevOf s p v) i).inList = (getE s i).inList := by
  cases p with
  | null => rfl
  | root => rfl
  | node h =>
      simp only [setPrevOf]
      rw [getE_setE]
      rcases Decidable.em (i = h ∧ h < s.arena.length) with hcase | hcase
      · rcases hcase with ⟨rfl, _⟩
        simp_all
      · simp [hcase]

/-! ### Lemmas about the map embedding -/

theorem dlookup_eq_none_iff (k : K) (d : List (K × Nat)) :
    dlookup k d = none ↔ ∀ p ∈ d, p.1 ≠ k := by
  induction d with
  | nil => simp [dlookup]
  | cons p t ih =>
      obtain ⟨k₁, h₁⟩ := p
      simp only [dlookup, List.mem_cons]
      rcases Decidable.em (k₁ = k) with rfl | hne
      · simp
      · simp only [if_neg hne, ih]
        constructor
        · rintro hall q (rfl | hq)
          · exact hne
          · exact hall q hq
        · intro hall q hq
          exact hall q (Or.inr hq)

theorem dlookup_mem (k : K) (d : List (K × Nat)) (h : Nat) (hl : dlookup k d = some h) :
    (k, h) ∈ d := by
  induction d with
  | nil => simp [dlookup] at hl
  | cons p t ih =>
      obtain ⟨k₁, h₁⟩ := p
      simp only [dlookup] at hl
      rcases Decidable.em (k₁ = k) with rfl | hne
      · rw [if_pos rfl] at hl
        obtain rfl : h₁ = h := Option.some.inj hl
        exact List.mem_cons_self _ _
      · rw [if_neg hne] at hl
        exact List.mem_cons_of_mem _ (ih hl)

theorem dlookup_eq_some_of_mem (k : K) (d : List (K × Nat)) (h : Nat)
    (hnd : (d.map Prod.fst).Nodup) (hm : (k, h) ∈ d) :
    dlookup k d = some h := by
  induction d with
  | nil => simp at hm
  | cons p t ih =>
      obtain ⟨k₁, h₁⟩ := p
      simp only [List.map_cons, List.nodup_cons] at hnd
      rcases List.mem_cons.mp hm with heq | hmt
      · obtain ⟨rfl, rfl⟩ := Prod.mk.injEq .. ▸ heq
        simp [dlookup]
      · simp only [dlookup]
        rcases Decidable.em (k₁ = k) with rfl | hne
        · exact absurd (List.mem_map_of_mem Prod.fst hmt) hnd.1
        · rw [if_neg hne]
          exact ih hnd.2 hmt

theorem dlookup_perm (k : K) (d d' : List (K × Nat)) (hperm : List.Perm d d')
    (hnd : (d.map Prod.fst).Nodup) :
    dlookup k d = dlookup k d' := by
  have hnd' : (d'.map Prod.fst).Nodup := ((hperm.map Prod.fst).nodup_iff).mp hnd
  cases hl : dlookup k d with
  | none =>
      rw [dlookup_eq_none_iff] at hl
      symm
      rw [dlookup_eq_none_iff]
      intro p hp
      exact hl p (hperm.symm.subset hp)
  | some h =>
      symm
      exact dlookup_eq_some_of_mem k d' h hnd' (hperm.subset (dlookup_mem k d h hl))

theorem mapSet_of_absent (k : K) (h : Nat) (d : List (K × Nat))
    (habs : ∀ p ∈ d, p.1 ≠ k) :
    mapSet k h d = d ++ [(k, h)] := by
  induction d with
  | nil => rfl
  | cons p t ih =>
      obtain ⟨k₁, h₁⟩ := p
      have hne : k₁ ≠ k := habs (k₁, h₁) (List.mem_cons_self _ _)
      simp only [mapSet, if_neg hne, List.cons_append, List.cons.injEq, true_and]
      exact ih fun q hq => habs q (List.mem_cons_of_mem _ hq)

theorem dlookup_ddelete_self (k : K) (d : List (K × Nat)) :
    dlookup k (ddelete k d) = none := by
  rw [dlookup_eq_none_iff]
  intro p hp
  have := List.of_mem_filter hp
  simpa using this

theorem dlookup_ddelete_ne (k k' : K) (d : List (K × Nat)) (hne : k ≠ k') :
    dlookup k (ddelete k' d) = dlookup k d := by
  induction d with
  | nil => rfl
  | cons p t ih =>
      obtain ⟨k₁, h₁⟩ := p
      simp only [ddelete] at ih ⊢
      rcases Decidable.em (k₁ = k') with rfl | hk
      · rw [List.filter_cons_of_neg (by simp)]
        conv_rhs => rw [dlookup]
        rw [if_neg (fun hcon => hne hcon.symm)]
        exact ih
      · rw [List.filter_cons_of_pos (by simp [hk])]
        simp only [dlookup]
        rcases Decidable.em (k₁ = k) with rfl | hkk
        · simp
        · rw [if_neg hkk, if_neg hkk]
          exact ih

/-! ### The list representation predicate

`segBetween s p hs q` says that the handles `hs` form a well-linked
doubly linked segment whose predecessor pointer is `p` and whose
successor is `q`: `p.next` is the first handle, consecutive handles
point at each other in both directions, and the last handle's `next`
is `q` with `q.prev` pointing back.  The whole cyclic list of the Go
`container/list` is `segBetween s Ptr.root hs Ptr.root`. -/

def segBetween (s : Memoria K V) : Ptr → List Nat → Ptr → Prop
  | p, [], q => ptrNext s p = q ∧ ptrPrev s q = p
  | p, h :: t, q =>
      ptrNext s p = Ptr.node h ∧ ptrPrev s (Ptr.node h) = p ∧ segBetween s (Ptr.node h) t q

instance instDecSegBetween (s : Memoria K V) :
    ∀ (p : Ptr) (hs : List Nat) (q : Ptr), Decidable (segBetween s p hs q)
  | p, [], q => inferInstanceAs (Decidable (ptrNext s p = q ∧ ptrPrev s q = p))
  | p, h :: t, q =>
      have : Decidable (segBetween s (Ptr.node h) t q) := instDecSegBetween s (Ptr.node h) t q
      inferInstanceAs
        (Decidable (ptrNext s p = Ptr.node h ∧ ptrPrev s (Ptr.node h) = p ∧ segBetween s (Ptr.node h) t q))

theorem segBetween_nil (s : Memoria K V) (p q : Ptr) :
    segBetween s p [] q ↔ ptrNext s p = q ∧ ptrPrev s q = p := Iff.rfl

theorem segBetween_cons (s : Memoria K V) (p : Ptr) (h : Nat) (t : List Nat) (q : Ptr) :
    segBetween s p (h :: t) q ↔
      ptrNext s p = Ptr.node h ∧ ptrPrev s (Ptr.node h) = p ∧ segBetween s (Ptr.node h) t q :=
  Iff.rfl

theorem segBetween_append_cons (s : Memoria K V) (xs : List Nat) (y : Nat) (ys : List Nat)
    (p q : Ptr) :
    segBetween s p (xs ++ y :: ys) q ↔
      segBetween s p xs (Ptr.node y) ∧ segBetween s (Ptr.node y) ys q := by
  induction xs generalizing p with
  | nil => simp [segBetween_nil, segBetween_cons, and_assoc]
  | cons x t ih => simp [segBetween_cons, ih, and_assoc]

/-- Transfer a segment between states that agree on the relevant
pointers. -/
theorem segBetween_of_agree (s t : Memoria K V) :
    ∀ (p : Ptr) (hs : List Nat) (q : Ptr),
      (∀ r, r = p ∨ r ∈ hs.map Ptr.node → ptrNext t r = ptrNext s r) →
      (∀ r, r = q ∨ r ∈ hs.map Ptr.node → ptrPrev t r = ptrPrev s r) →
      segBetween s p hs q → segBetween t p hs q
  | p, [], q, hn, hp, hseg => by
      exact ⟨(hn p (Or.inl rfl)).trans hseg.1, (hp q (Or.inl rfl)).trans hseg.2⟩
  | p, h :: ht, q, hn, hp, hseg => by
      obtain ⟨h1, h2, h3⟩ := hseg
      refine ⟨(hn p (Or.inl rfl)).trans h1, (hp (Ptr.node h) (Or.inr (by simp))).trans h2, ?_⟩
      apply segBetween_of_agree s t (Ptr.node h) ht q
      · intro r hr
        apply hn r
        rcases hr with rfl | hr
        · exact Or.inr (by simp)
        · refine Or.inr ?_
          simp only [List.map_cons, List.mem_cons]
          exact Or.inr hr
      · intro r hr
        apply hp r
        rcases hr with rfl | hr
        · exact Or.inl rfl
        · refine Or.inr ?_
          simp only [List.map_cons, List.mem_cons]
          exact Or.inr hr
      · exact h3

/-- The prev-pointer projections of a segment. -/
def revChain (s : Memoria K V) : Ptr → List Nat → Prop
  | _, [] => True
  | p, h :: t => (getE s h).prevP = p ∧ revChain s (Ptr.node h) t

theorem revChain_of_seg (s : Memoria K V) :
    ∀ (hs : List Nat) (p q : Ptr), segBetween s p hs q → revChain s p hs
  | [], _, _, _ => trivial
  | h :: t, p, q, hseg => by
      obtain ⟨_, h2, h3⟩ := hseg
      exact ⟨by simpa [ptrPrev] using h2, revChain_of_seg s t (Ptr.node h) q h3⟩

/-- The first handle of a traversal list, or the end pointer when the
list is empty. -/
def headPtrP : List Nat → Ptr → Ptr
  | [], pEnd => pEnd
  | h :: _, _ => Ptr.node h

theorem headPtrP_append_singleton (xs : List Nat) (h : Nat) (p : Ptr) :
    headPtrP (xs ++ [h]) p = headPtrP xs (Ptr.node h) := by
  cases xs <;> rfl

/-- Back-to-front traversal facts: each listed handle is linked
(`e.list != nil`) and its `prev` pointer leads to the next listed
handle, with the final `prev` equal to `pEnd`. -/
def backSegP (s : Memoria K V) : List Nat → Ptr → Prop
  | [], _ => True
  | h :: t, pEnd => (getE s h).inList = true ∧ (getE s h).prevP = headPtrP t pEnd ∧ backSegP s t pEnd

theorem backSegP_append_singleton (s : Memoria K V) :
    ∀ (xs : List Nat) (h : Nat) (p : Ptr),
    backSegP s (xs ++ [h]) p ↔
      backSegP s xs (Ptr.node h) ∧ ((getE s h).inList = true ∧ (getE s h).prevP = p)
  | [], h, p => by simp [backSegP, headPtrP, and_comm]
  | x :: xs, h, p => by
      have ih := backSegP_append_singleton s xs h p
      simp only [List.cons_append, backSegP, List.append_eq, headPtrP_append_singleton, ih]
      tauto

theorem backSegP_of_revChain (s : Memoria K V) :
    ∀ (hs : List Nat) (p : Ptr), revChain s p hs → (∀ h ∈ hs, (getE s h).inList = true) →
      backSegP s hs.reverse p
  | [], _, _, _ => trivial
  | h :: t, p, hrc, hin => by
      obtain ⟨h1, h2⟩ := hrc
      have ih := backSegP_of_revChain s t (Ptr.node h) h2
        (fun x hx => hin x (List.mem_cons_of_mem _ hx))
      simp only [List.reverse_cons, backSegP_append_singleton]
      exact ⟨ih, hin h (List.mem_cons_self _ _), h1⟩

theorem rootPrev_of_seg (s : Memoria K V) :
    ∀ (hs : List Nat) (p : Ptr), segBetween s p hs Ptr.root →
      s.rootPrev = headPtrP hs.reverse p
  | [], p, hseg => by simpa [ptrPrev, headPtrP] using hseg.2
  | h :: t, p, hseg => by
      obtain ⟨_, _, h3⟩ := hseg
      have ih := rootPrev_of_seg s t (Ptr.node h) h3
      simpa [headPtrP_append_singleton] using ih

theorem keysAux_null (s : Memoria K V) (fuel : Nat) (acc : List K) :
    keysAux s fuel Ptr.null acc = acc := by
  cases fuel <;> rfl

theorem keysAux_root (s : Memoria K V) (fuel : Nat) (acc : List K) :
    keysAux s fuel Ptr.root acc = acc := by
  cases fuel <;> rfl

theorem keysAux_node (s : Memoria K V) (f : Nat) (h : Nat) (acc : List K) :
    keysAux s (f + 1) (Ptr.node h) acc = keysAux s f (elemPrev s h) (acc ++ [(getE s h).key]) :=
  rfl

theorem keysAux_backSegP (s : Memoria K V) :
    ∀ (rs : List Nat) (fuel : Nat) (acc : List K), backSegP s rs Ptr.root →
      rs.length ≤ fuel →
      keysAux s fuel (headPtrP rs Ptr.root) acc = acc ++ rs.map (fun h => (getE s h).key)
  | [], fuel, acc, _, _ => by
      rw [show headPtrP [] Ptr.root = Ptr.root from rfl, keysAux_root]
      simp
  | h :: t, fuel, acc, hbs, hle => by
      obtain ⟨hin, hprev, hbs'⟩ := hbs
      cases fuel with
      | zero => exact absurd hle (by simp)
      | succ f =>
          rw [show headPtrP (h :: t) Ptr.root = Ptr.node h from rfl, keysAux_node]
          cases t with
          | nil =>
              have hpnull : elemPrev s h = Ptr.null := by
                simp only [headPtrP] at hprev
                simp [elemPrev, hin, hprev]
              rw [hpnull, keysAux_null]
              simp
          | cons h₂ t₂ =>
              have hstep : elemPrev s h = Ptr.node h₂ := by
                simp only [headPtrP] at hprev
                simp [elemPrev, hin, hprev]
              have ih := keysAux_backSegP s (h₂ :: t₂) f (acc ++ [(getE s h).key]) hbs'
                (by simp only [List.length_cons] at hle ⊢; omega)
              simp only [headPtrP] at ih
              rw [hstep, ih]
              simp

/-! ### The structural invariant of an open cache

This is the invariant stated by the specification's data model: the
Recency List is a well-formed doubly linked cycle through the sentinel
whose node set is exactly the Key Index's value set, keys are unique,
and the list length, the index size and the reported length agree. -/

def Wf (s : Memoria K V) (hs : List Nat) : Prop :=
  segBetween s Ptr.root hs Ptr.root ∧
  hs.Nodup ∧
  (∀ h ∈ hs, h < s.arena.length) ∧
  (∀ h ∈ hs, (getE s h).inList = true) ∧
  s.llen = hs.length ∧
  s.len = (hs.length : Int) ∧
  List.Perm s.dict (hs.map fun h => ((getE s h).key, h)) ∧
  (s.dict.map Prod.fst).Nodup

instance (s : Memoria K V) (hs : List Nat) : Decidable (Wf s hs) := by
  unfold Wf
  infer_instance

/-- The cache is open and shutdown has not been signalled. -/
def IsOpen (s : Memoria K V) : Prop :=
  s.closed = false ∧ s.doneClosed = false

instance (s : Memoria K V) : Decidable (IsOpen s) := by
  unfold IsOpen
  infer_instance

theorem Wf.chain_keys_nodup {s : Memoria K V} {hs : List Nat} (w : Wf s hs) :
    ((hs.map fun h => (getE s h).key).Nodup) := by
  have hperm := (w.2.2.2.2.2.2.1).map Prod.fst
  have : (hs.map fun h => ((getE s h).key, h)).map Prod.fst = hs.map fun h => (getE s h).key := by
    simp [List.map_map, Function.comp]
  rw [this] at hperm
  exact hperm.nodup_iff.mp w.2.2.2.2.2.2.2

theorem Wf.lookup_some {s : Memoria K V} {hs : List Nat} (w : Wf s hs) {k : K} {h : Nat}
    (hl : dlookup k s.dict = some h) : h ∈ hs ∧ (getE s h).key = k := by
  have hmem := dlookup_mem k s.dict h hl
  have hmem' := (w.2.2.2.2.2.2.1).subset hmem
  obtain ⟨h', hh', heq⟩ := List.mem_map.mp hmem'
  obtain ⟨hk, hh⟩ := Prod.mk.injEq .. ▸ heq
  exact ⟨hh ▸ hh', hh ▸ hk⟩

theorem Wf.lookup_of_mem {s : Memoria K V} {hs : List Nat} (w : Wf s hs) {h : Nat}
    (hm : h ∈ hs) : dlookup ((getE s h).key) s.dict = some h := by
  apply dlookup_eq_some_of_mem _ _ _ w.2.2.2.2.2.2.2
  exact (w.2.2.2.2.2.2.1).symm.subset (List.mem_map_of_mem _ hm)

theorem Wf.lookup_none {s : Memoria K V} {hs : List Nat} (w : Wf s hs) {k : K}
    (hl : dlookup k s.dict = none) : ∀ h ∈ hs, (getE s h).key ≠ k := by
  intro h hm hk
  rw [dlookup_eq_none_iff] at hl
  exact hl ((getE s h).key, h) ((w.2.2.2.2.2.2.1).symm.subset (List.mem_map_of_mem _ hm)) hk

theorem Wf.length_le {s : Memoria K V} {hs : List Nat} (w : Wf s hs) :
    hs.length ≤ s.arena.length := by
  classical
  have hcard : hs.length = hs.toFinset.card := (List.toFinset_card_of_nodup w.2.1).symm
  have hsub : hs.toFinset ⊆ Finset.range s.arena.length := by
    intro x hx
    simp only [List.mem_toFinset] at hx
    simpa using w.2.2.1 x hx
  calc hs.length = hs.toFinset.card := hcard
    _ ≤ (Finset.range s.arena.length).card := Finset.card_le_card hsub
    _ = s.arena.length := Finset.card_range _

/-- `Keys` on a well-formed open cache returns the chain keys from the
tail to the head. -/
theorem Keys_of_Wf (s : Memoria K V) (hs : List Nat) (w : Wf s hs)
    (hc : s.closed = false) :
    Keys s = (hs.reverse).map (fun h => (getE s h).key) := by
  obtain ⟨hseg, hnd, hbound, hin, hllen, hlen, hperm, hdk⟩ := w
  simp only [Keys, hc, if_neg Bool.false_ne_true]
  cases hs with
  | nil =>
      simp only [hllen]
      simp [keysAux]
  | cons h t =>
      have hlne : s.llen ≠ 0 := by simp [hllen]
      rw [if_neg hlne]
      have hrp : s.rootPrev = headPtrP ((h :: t).reverse) Ptr.root :=
        rootPrev_of_seg s (h :: t) Ptr.root hseg
      have hbs : backSegP s ((h :: t).reverse) Ptr.root :=
        backSegP_of_revChain s (h :: t) Ptr.root (revChain_of_seg s (h :: t) Ptr.root Ptr.root hseg) hin
      have hfuel : ((h :: t).reverse).length ≤ s.arena.length + 1 := by
        have := Wf.length_le (show Wf s (h :: t) from ⟨hseg, hnd, hbound, hin, hllen, hlen, hperm, hdk⟩)
        simp only [List.length_reverse]
        omega
      rw [hrp]
      simpa using keysAux_backSegP s ((h :: t).reverse) (s.arena.length + 1) [] hbs hfuel

/-! ### Closed forms for the list operations -/

theorem getD_append_lt {α : Type} (l l' : List α) (i : Nat) (d : α) (h : i < l.length) :
    (l ++ l').getD i d = l.getD i d := by
  simp only [List.getD_eq_getElem?_getD]
  rw [List.getElem?_append]
  simp [h]

theorem getD_append_self {α : Type} (l : List α) (x : α) (d : α) :
    (l ++ [x]).getD l.length d = x := by
  simp [List.getD_eq_getElem?_getD]

/-- `pushFront` on a cache whose list is empty (`root.next == &root`). -/
theorem pushFront_eq_of_empty (s : Memoria K V) (k : K) (v : V)
    (hrn : s.rootNext = Ptr.root) :
    pushFront s k v =
      ({ s with arena := s.arena ++ [(⟨Ptr.root, Ptr.root, true, k, v⟩ : Elem K V)],
                rootNext := Ptr.node s.arena.length,
                rootPrev := Ptr.node s.arena.length,
                llen := s.llen + 1 }, s.arena.length) := by
  have hget : getE { s with
                      arena := s.arena ++ [(⟨Ptr.root, Ptr.root, true, k, v⟩ : Elem K V)],
                      rootNext := Ptr.node s.arena.length } s.arena.length =
      (⟨Ptr.root, Ptr.root, true, k, v⟩ : Elem K V) := by
    simp only [getE]
    exact getD_append_self s.arena _ default
  simp only [pushFront, hrn]
  rw [hget]
  rfl

/-- `pushFront` on a cache whose list has head element `h₀`. -/
theorem pushFront_eq_of_head (s : Memoria K V) (k : K) (v : V) (h₀ : Nat)
    (hrn : s.rootNext = Ptr.node h₀) (hb : h₀ < s.arena.length) :
    pushFront s k v =
      ({ s with arena := (s.arena ++ [(⟨Ptr.root, Ptr.node h₀, true, k, v⟩ : Elem K V)]).set h₀
                  { getE s h₀ with prevP := Ptr.node s.arena.length },
                rootNext := Ptr.node s.arena.length,
                llen := s.llen + 1 }, s.arena.length) := by
  have hget : getE { s with
                      arena := s.arena ++ [(⟨Ptr.root, Ptr.node h₀, true, k, v⟩ : Elem K V)],
                      rootNext := Ptr.node s.arena.length } s.arena.length =
      (⟨Ptr.root, Ptr.node h₀, true, k, v⟩ : Elem K V) := by
    simp only [getE]
    exact getD_append_self s.arena _ default
  have hget₀ : getE { s with
                      arena := s.arena ++ [(⟨Ptr.root, Ptr.node h₀, true, k, v⟩ : Elem K V)],
                      rootNext := Ptr.node s.arena.length } h₀ = getE s h₀ := by
    simp only [getE]
    exact getD_append_lt s.arena _ h₀ default hb
  simp only [pushFront, hrn]
  rw [hget]
  simp only [setPrevOf, setE]
  rw [hget₀]

theorem getE_setNextOf_node (s : Memoria K V) (j : Nat) (v : Ptr) (i : Nat) :
    getE (setNextOf s (Ptr.node j) v) i =
      if i = j ∧ j < s.arena.length then { getE s j with nextP := v } else getE s i := by
  simp only [setNextOf]
  exact getE_setE s j _ i

theorem getE_setPrevOf_node (s : Memoria K V) (j : Nat) (v : Ptr) (i : Nat) :
    getE (setPrevOf s (Ptr.node j) v) i =
      if i = j ∧ j < s.arena.length then { getE s j with prevP := v } else getE s i := by
  simp only [setPrevOf]
  exact getE_setE s j _ i

@[simp] theorem getE_setNextOf_root (s : Memoria K V) (v : Ptr) (i : Nat) :
    getE (setNextOf s Ptr.root v) i = getE s i := rfl

@[simp] theorem getE_setPrevOf_root (s : Memoria K V) (v : Ptr) (i : Nat) :
    getE (setPrevOf s Ptr.root v) i = getE s i := rfl

@[simp] theorem rootNext_setPrevOf (s : Memoria K V) (p v : Ptr) :
    (setPrevOf s p v).rootNext = s.rootNext := by cases p <;> rfl

@[simp] theorem rootPrev_setNextOf (s : Memoria K V) (p v : Ptr) :
    (setNextOf s p v).rootPrev = s.rootPrev := by cases p <;> rfl

theorem rootNext_setNextOf_root (s : Memoria K V) (v : Ptr) :
    (setNextOf s Ptr.root v).rootNext = v := rfl

theorem rootNext_setNextOf_node (s : Memoria K V) (j : Nat) (v : Ptr) :
    (setNextOf s (Ptr.node j) v).rootNext = s.rootNext := rfl

theorem rootPrev_setPrevOf_root (s : Memoria K V) (v : Ptr) :
    (setPrevOf s Ptr.root v).rootPrev = v := rfl

theorem rootPrev_setPrevOf_node (s : Memoria K V) (j : Nat) (v : Ptr) :
    (setPrevOf s (Ptr.node j) v).rootPrev = s.rootPrev := rfl

/-- The state of `Put` on a fresh key just before the capacity check:
the pushed front element is registered in the index and the length is
incremented. -/
def insState (s : Memoria K V) (k : K) (v : V) : Memoria K V :=
  { (pushFront s k v).1 with
    dict := mapSet k (pushFront s k v).2 (pushFront s k v).1.dict,
    len := (pushFront s k v).1.len + 1 }

theorem Put_eq_of_fresh (s : Memoria K V) (k : K) (v : V)
    (hc : s.closed = false) (hl : dlookup k s.dict = none) :
    Put k v s =
      if (insState s k v).capacity < (insState s k v).len then evict (insState s k v)
      else insState s k v := by
  simp only [Put, hc, hl, Bool.false_eq_true, if_false]
  rfl

theorem Put_eq_of_existing (s : Memoria K V) (k : K) (v : V) (h : Nat)
    (hc : s.closed = false) (hl : dlookup k s.dict = some h) :
    Put k v s = setE (moveToFront s h) h { getE (moveToFront s h) h with value := v } := by
  simp only [Put, hc, hl, Bool.false_eq_true, if_false]


theorem insState_basic (s : Memoria K V) (k : K) (v : V) :
    (insState s k v).capacity = s.capacity ∧
    (insState s k v).closed = s.closed ∧
    (insState s k v).doneClosed = s.doneClosed ∧
    (insState s k v).ch = s.ch ∧
    (insState s k v).onceDone = s.onceDone ∧
    (insState s k v).stopped = s.stopped ∧
    (insState s k v).len = s.len + 1 ∧
    (insState s k v).llen = s.llen + 1 ∧
    (insState s k v).arena.length = s.arena.length + 1 ∧
    (insState s k v).dict = mapSet k s.arena.length s.dict := by
  refine ⟨?_, ?_, ?_, ?_, ?_, ?_, ?_, ?_, ?_, ?_⟩ <;>
    simp [insState, pushFront]

/-- Inserting a fresh key preserves the invariant, with the new
element prepended to the chain. -/
theorem Wf_insState (s : Memoria K V) (hs : List Nat) (k : K) (v : V)
    (w : Wf s hs) (hl : dlookup k s.dict = none) :
    Wf (insState s k v) (s.arena.length :: hs) ∧
    (insState s k v).dict = s.dict ++ [(k, s.arena.length)] ∧
    (getE (insState s k v) s.arena.length).key = k ∧
    (getE (insState s k v) s.arena.length).value = v ∧
    (∀ i, i ≠ s.arena.length →
      (getE (insState s k v) i).key = (getE s i).key ∧
      (getE (insState s k v) i).value = (getE s i).value) := by
  obtain ⟨hseg, hnd, hbound, hin, hllen, hlen, hperm, hdk⟩ := w
  obtain ⟨hcap, hclosed, hdone, hch, honce, hstop, hlen', hllen', halen, hdict0⟩ :=
    insState_basic s k v
  have habs : ∀ p ∈ s.dict, p.1 ≠ k := (dlookup_eq_none_iff k s.dict).mp hl
  have hdict : (insState s k v).dict = s.dict ++ [(k, s.arena.length)] := by
    rw [hdict0, mapSet_of_absent k s.arena.length s.dict habs]
  have hkeyfresh : k ∉ s.dict.map Prod.fst := by
    intro hmem
    obtain ⟨p, hp, hpk⟩ := List.mem_map.mp hmem
    exact habs p hp hpk
  have hnmem : s.arena.length ∉ hs := fun hmem => by
    have := hbound _ hmem
    omega
  -- a description of every element read in the new state
  have hmain : (∀ i, i ≠ s.arena.length → i ∉ hs →
        getE (insState s k v) i = getE s i) ∧
      (getE (insState s k v) s.arena.length =
        ⟨Ptr.root, s.rootNext, true, k, v⟩) ∧
      (∀ i, i ≠ s.arena.length →
        (getE (insState s k v) i).key = (getE s i).key ∧
        (getE (insState s k v) i).value = (getE s i).value ∧
        (getE (insState s k v) i).inList = (getE s i).inList ∧
        (getE (insState s k v) i).nextP = (getE s i).nextP) ∧
      segBetween (insState s k v) Ptr.root (s.arena.length :: hs) Ptr.root := by
    cases hs with
    | nil =>
        have hrn : s.rootNext = Ptr.root := hseg.1
        have hins : insState s k v =
            { s with arena := s.arena ++ [(⟨Ptr.root, Ptr.root, true, k, v⟩ : Elem K V)],
                     rootNext := Ptr.node s.arena.length,
                     rootPrev := Ptr.node s.arena.length,
                     llen := s.llen + 1,
                     dict := mapSet k s.arena.length s.dict,
                     len := s.len + 1 } := by
          simp only [insState, pushFront_eq_of_empty s k v hrn]
        have hgeti : ∀ i, getE (insState s k v) i =
            if i = s.arena.length then ⟨Ptr.root, Ptr.root, true, k, v⟩ else getE s i := by
          intro i
          rw [hins]
          simp only [getE, List.getD_eq_getElem?_getD]
          rw [List.getElem?_append]
          rcases Decidable.em (i < s.arena.length) with hlt | hge
          · rw [if_pos hlt, if_neg (by omega)]
          · rw [if_neg hge]
            rcases Decidable.em (i = s.arena.length) with rfl | hne
            · simp
            · rw [if_neg hne]
              have h1 : ([(⟨Ptr.root, Ptr.root, true, k, v⟩ : Elem K V)])[i - s.arena.length]? = none := by
                rw [List.getElem?_eq_none_iff]
                simp only [List.length_singleton]
                omega
              have h2 : s.arena[i]? = none := List.getElem?_eq_none_iff.mpr (by omega)
              rw [h1, h2]
        refine ⟨?_, ?_, ?_, ?_⟩
        · intro i hi _
          rw [hgeti, if_neg hi]
        · rw [hgeti, if_pos rfl, hrn]
        · intro i hi
          rw [hgeti, if_neg hi]
          exact ⟨rfl, rfl, rfl, rfl⟩
        · refine ⟨?_, ?_, ?_, ?_⟩
          · simp [hins, ptrNext]
          · simp [ptrPrev, hgeti]
          · simp [ptrNext, hgeti]
          · simp [hins, ptrPrev]
    | cons h₀ t =>
        have hrn : s.rootNext = Ptr.node h₀ := hseg.1
        have hb0 : h₀ < s.arena.length := hbound h₀ (List.mem_cons_self _ _)
        have hnn : h₀ ≠ s.arena.length := by omega
        have hins : insState s k v =
            { s with arena := (s.arena ++ [(⟨Ptr.root, Ptr.node h₀, true, k, v⟩ : Elem K V)]).set h₀
                       { getE s h₀ with prevP := Ptr.node s.arena.length },
                     rootNext := Ptr.node s.arena.length,
                     llen := s.llen + 1,
                     dict := mapSet k s.arena.length s.dict,
                     len := s.len + 1 } := by
          simp only [insState, pushFront_eq_of_head s k v h₀ hrn hb0]
        have hgeti : ∀ i, getE (insState s k v) i =
            if i = h₀ then { getE s h₀ with prevP := Ptr.node s.arena.length }
            else if i = s.arena.length then ⟨Ptr.root, Ptr.node h₀, true, k, v⟩
            else getE s i := by
          intro i
          rw [hins]
          simp only [getE, List.getD_eq_getElem?_getD]
          rw [List.getElem?_set]
          rcases Decidable.em (h₀ = i) with rfl | hne
          · have hlt : h₀ < (s.arena ++ [(⟨Ptr.root, Ptr.node h₀, true, k, v⟩ : Elem K V)]).length := by
              simp only [List.length_append, List.length_singleton]
              omega
            rw [if_pos rfl, if_pos hlt, if_pos rfl]
            rfl
          · rw [if_neg hne, if_neg (fun hcon : i = h₀ => hne hcon.symm)]
            rw [List.getElem?_append]
            rcases Decidable.em (i < s.arena.length) with hlt | hge
            · rw [if_pos hlt, if_neg (by omega)]
            · rw [if_neg hge]
              rcases Decidable.em (i = s.arena.length) with rfl | hne2
              · simp
              · rw [if_neg hne2]
                have h1 : ([(⟨Ptr.root, Ptr.node h₀, true, k, v⟩ : Elem K V)])[i - s.arena.length]? = none := by
                  rw [List.getElem?_eq_none_iff]
                  simp only [List.length_singleton]
                  omega
                have h2 : s.arena[i]? = none := List.getElem?_eq_none_iff.mpr (by omega)
                rw [h1, h2]
        have hnd0 : h₀ ∉ t := (List.nodup_cons.mp hnd).1
        refine ⟨?_, ?_, ?_, ?_⟩
        · intro i hi hmem
          have hih : i ≠ h₀ := fun hcon => hmem (hcon ▸ List.mem_cons_self _ _)
          rw [hgeti, if_neg hih, if_neg hi]
        · rw [hgeti, if_neg (fun hcon => hnn hcon.symm), if_pos rfl, hrn]
        · intro i hi
          rw [hgeti]
          rcases Decidable.em (i = h₀) with rfl | hne
          · rw [if_pos rfl]
            exact ⟨rfl, rfl, rfl, rfl⟩
          · rw [if_neg hne, if_neg hi]
            exact ⟨rfl, rfl, rfl, rfl⟩
        · refine ⟨?_, ?_, ?_, ?_, ?_⟩
          · simp [hins, ptrNext]
          · simp [ptrPrev, hgeti, show s.arena.length ≠ h₀ from fun hcon => hnn hcon.symm]
          · simp [ptrNext, hgeti, show s.arena.length ≠ h₀ from fun hcon => hnn hcon.symm]
          · simp [ptrPrev, hgeti]
          · -- transfer the tail segment from s
            apply segBetween_of_agree s (insState s k v) (Ptr.node h₀) t Ptr.root
            · intro r hr
              rcases hr with rfl | hr
              · simp [ptrNext, hgeti]
              · obtain ⟨j, hj, rfl⟩ := List.mem_map.mp hr
                have hjne0 : j ≠ h₀ := fun hcon => hnd0 (hcon ▸ hj)
                have hjnen : j ≠ s.arena.length := by
                  have := hbound j (List.mem_cons_of_mem _ hj)
                  omega
                simp only [ptrNext, hgeti]
                rw [if_neg hjne0, if_neg hjnen]
            · intro r hr
              rcases hr with rfl | hr
              · simp only [ptrPrev]
                rw [hins]
              · obtain ⟨j, hj, rfl⟩ := List.mem_map.mp hr
                have hjne0 : j ≠ h₀ := fun hcon => hnd0 (hcon ▸ hj)
                have hjnen : j ≠ s.arena.length := by
                  have := hbound j (List.mem_cons_of_mem _ hj)
                  omega
                simp only [ptrPrev, hgeti]
                rw [if_neg hjne0, if_neg hjnen]
            · exact hseg.2.2
  obtain ⟨hother, hnew, hkv, hsegnew⟩ := hmain
  have hkn : (getE (insState s k v) s.arena.length).key = k := by rw [hnew]
  have hvn : (getE (insState s k v) s.arena.length).value = v := by rw [hnew]
  refine ⟨⟨hsegnew, ?_, ?_, ?_, ?_, ?_, ?_, ?_⟩, hdict, hkn, hvn, fun i hi => ⟨(hkv i hi).1, (hkv i hi).2.1⟩⟩
  · exact List.nodup_cons.mpr ⟨hnmem, hnd⟩
  · intro h hm
    rw [halen]
    rcases List.mem_cons.mp hm with rfl | hm
    · omega
    · have := hbound h hm
      omega
  · intro h hm
    rcases List.mem_cons.mp hm with rfl | hm
    · rw [hnew]
    · have hh : h ≠ s.arena.length := by
        have := hbound h hm
        omega
      rw [(hkv h hh).2.2.1]
      exact hin h hm
  · rw [hllen', hllen]
    simp
  · rw [hlen', hlen]
    simp only [List.length_cons]
    push_cast
    ring
  · have hmapeq : hs.map (fun h => ((getE (insState s k v) h).key, h)) =
        hs.map (fun h => ((getE s h).key, h)) := by
      apply List.map_congr_left
      intro a ha
      have hna : a ≠ s.arena.length := by
        have := hbound a ha
        omega
      rw [(hkv a hna).1]
    rw [hdict, List.map_cons, hkn, hmapeq]
    exact (List.perm_append_singleton _ _).trans (hperm.cons _)
  · rw [hdict]
    simp only [List.map_append, List.map_cons, List.map_nil]
    rw [List.nodup_append]
    refine ⟨hdk, List.nodup_singleton _, ?_⟩
    intro a ha hb
    simp only [List.mem_singleton] at hb
    subst hb
    exact hkeyfresh ha

@[simp] theorem removeElem_dict (s : Memoria K V) (b : Nat) :
    (removeElem s b).dict = s.dict := by
  simp [removeElem]

@[simp] theorem removeElem_len (s : Memoria K V) (b : Nat) :
    (removeElem s b).len = s.len := by
  simp [removeElem]

@[simp] theorem removeElem_capacity (s : Memoria K V) (b : Nat) :
    (removeElem s b).capacity = s.capacity := by
  simp [removeElem]

@[simp] theorem removeElem_closed (s : Memoria K V) (b : Nat) :
    (removeElem s b).closed = s.closed := by
  simp [removeElem]

@[simp] theorem removeElem_doneClosed (s : Memoria K V) (b : Nat) :
    (removeElem s b).doneClosed = s.doneClosed := by
  simp [removeElem]

@[simp] theorem removeElem_ch (s : Memoria K V) (b : Nat) :
    (removeElem s b).ch = s.ch := by
  simp [removeElem]

@[simp] theorem removeElem_onceDone (s : Memoria K V) (b : Nat) :
    (removeElem s b).onceDone = s.onceDone := by
  simp [removeElem]

@[simp] theorem removeElem_stopped (s : Memoria K V) (b : Nat) :
    (removeElem s b).stopped = s.stopped := by
  simp [removeElem]

@[simp] theorem removeElem_arena_length (s : Memoria K V) (b : Nat) :
    (removeElem s b).arena.length = s.arena.length := by
  simp [removeElem]

@[simp] theorem removeElem_llen (s : Memoria K V) (b : Nat) :
    (removeElem s b).llen = s.llen - 1 := by
  simp [removeElem]

theorem evict_eq (s : Memoria K V) (b : Nat) (hll : s.llen ≠ 0)
    (hrp : s.rootPrev = Ptr.node b) (hinb : (getE s b).inList = true) :
    evict s = { removeElem s b with
      dict := ddelete (getE s b).key s.dict, len := s.len - 1 } := by
  simp only [evict, hrp, if_neg hll, hinb, if_pos, removeElem_dict, removeElem_len]

/-- `remove` of the unique element of a one-element list. -/
theorem removeElem_eq_of_single (s : Memoria K V) (b : Nat)
    (hpb : (getE s b).prevP = Ptr.root) (hnb : (getE s b).nextP = Ptr.root) :
    removeElem s b = { s with
      rootNext := Ptr.root, rootPrev := Ptr.root,
      arena := s.arena.set b { getE s b with prevP := Ptr.null, nextP := Ptr.null, inList := false },
      llen := s.llen - 1 } := by
  have h1 : getE (setNextOf s Ptr.root Ptr.root) b = getE s b := rfl
  simp only [removeElem, hpb, hnb, h1]
  rfl

/-- `remove` of the last element of a list whose second-to-last
element is `a`. -/
theorem removeElem_eq_of_last (s : Memoria K V) (a b : Nat) (hab : b ≠ a)
    (hpb : (getE s b).prevP = Ptr.node a) (hnb : (getE s b).nextP = Ptr.root) :
    removeElem s b = { s with
      arena := (s.arena.set a { getE s a with nextP := Ptr.root }).set b
        { getE s b with prevP := Ptr.null, nextP := Ptr.null, inList := false },
      rootPrev := Ptr.node a,
      llen := s.llen - 1 } := by
  have h1 : getE (setNextOf s (Ptr.node a) Ptr.root) b = getE s b := by
    rw [getE_setNextOf_node]
    rw [if_neg (fun hc => hab hc.1)]
  have h2 : getE (setPrevOf (setNextOf s (Ptr.node a) Ptr.root) Ptr.root (Ptr.node a)) b =
      getE s b := h1
  simp only [removeElem, hpb, hnb, h1, h2]
  rfl

/-- Evicting from a cache whose chain ends in `b` removes exactly `b`
from the list and its key from the index. -/
theorem Wf_evict (s : Memoria K V) (init : List Nat) (b : Nat)
    (w : Wf s (init ++ [b])) :
    Wf (evict s) init ∧
    (evict s).dict = ddelete (getE s b).key s.dict ∧
    (evict s).len = s.len - 1 ∧
    (∀ i, i ≠ b →
      (getE (evict s) i).key = (getE s i).key ∧
      (getE (evict s) i).value = (getE s i).value) ∧
    (evict s).capacity = s.capacity ∧
    (evict s).closed = s.closed ∧
    (evict s).doneClosed = s.doneClosed ∧
    (evict s).ch = s.ch ∧
    (evict s).onceDone = s.onceDone ∧
    (evict s).stopped = s.stopped ∧
    (evict s).arena.length = s.arena.length := by
  have hkeysnd := Wf.chain_keys_nodup w
  obtain ⟨hseg, hnd, hbound, hin, hllen, hlen, hperm, hdk⟩ := w
  have hbmem : b ∈ init ++ [b] := by simp
  have hb : b < s.arena.length := hbound b hbmem
  have hinb : (getE s b).inList = true := hin b hbmem
  have hll : s.llen ≠ 0 := by
    rw [hllen]
    simp
  have hrp : s.rootPrev = Ptr.node b := by
    have hr := rootPrev_of_seg s (init ++ [b]) Ptr.root hseg
    rw [List.reverse_append] at hr
    simpa [headPtrP] using hr
  have hsegsplit := (segBetween_append_cons s init b [] Ptr.root Ptr.root).mp hseg
  obtain ⟨hseg1, hseg2⟩ := hsegsplit
  have hnb : (getE s b).nextP = Ptr.root := hseg2.1
  have hndparts : init.Nodup ∧ b ∉ init := by
    rw [List.nodup_append] at hnd
    refine ⟨hnd.1, fun hmem => ?_⟩
    exact hnd.2.2 hmem (List.mem_singleton_self b)
  obtain ⟨hndi, hbni⟩ := hndparts
  have hkbni : (getE s b).key ∉ init.map (fun h => (getE s h).key) := by
    rw [List.map_append, List.nodup_append] at hkeysnd
    intro hmem
    exact hkeysnd.2.2 hmem (by simp)
  rcases List.eq_nil_or_concat init with rfl | ⟨init₀, a, hconc⟩
  · -- empty remainder: b was the only element
    have hpb : (getE s b).prevP = Ptr.root := hseg1.2
    have hE : evict s = { s with
        rootNext := Ptr.root, rootPrev := Ptr.root,
        arena := s.arena.set b { getE s b with prevP := Ptr.null, nextP := Ptr.null, inList := false },
        llen := s.llen - 1,
        dict := ddelete (getE s b).key s.dict,
        len := s.len - 1 } := by
      rw [evict_eq s b hll hrp hinb, removeElem_eq_of_single s b hpb hnb]
    have hdictsing : s.dict = [((getE s b).key, b)] := by
      have := hperm
      simp only [List.nil_append, List.map_cons, List.map_nil] at this
      exact List.perm_singleton.mp this
    have hddel : ddelete (getE s b).key s.dict = [] := by
      rw [hdictsing]
      simp [ddelete]
    have hgeti : ∀ i, i ≠ b → getE (evict s) i = getE s i := by
      intro i hi
      rw [hE]
      simp only [getE, List.getD_eq_getElem?_getD]
      rw [List.getElem?_set, if_neg (fun hcon => hi hcon.symm)]
    refine ⟨⟨?_, ?_, ?_, ?_, ?_, ?_, ?_, ?_⟩, ?_, ?_, ?_, ?_, ?_, ?_, ?_, ?_, ?_, ?_⟩
    · refine ⟨?_, ?_⟩ <;> simp [hE, ptrNext, ptrPrev]
    · simp
    · intro h hm
      simp at hm
    · intro h hm
      simp at hm
    · rw [hE]
      simp only [List.nil_append, List.length_cons, List.length_nil] at hllen
      simp [hllen]
    · rw [hE]
      simp only [List.nil_append, List.length_cons, List.length_nil] at hlen
      simp [hlen]
    · rw [hE]
      simp [hddel]
    · rw [hE]
      simp [hddel]
    · rw [hE]
    · rw [hE]
    · exact fun i hi => by rw [hgeti i hi]; exact ⟨rfl, rfl⟩
    · rw [hE]
    · rw [hE]
    · rw [hE]
    · rw [hE]
    · rw [hE]
    · rw [hE]
    · rw [hE]
      simp
  · -- the remainder ends in `a`
    subst hconc
    rw [List.concat_eq_append] at *
    have hamem : a ∈ init₀ ++ [a] := by simp
    have ha : a < s.arena.length := hbound a (by simp)
    have hab : b ≠ a := fun hcon => hbni (hcon ▸ hamem)
    have hsplit2 := (segBetween_append_cons s init₀ a [] Ptr.root (Ptr.node b)).mp hseg1
    obtain ⟨hseg1a, hseg1b⟩ := hsplit2
    have hpb : (getE s b).prevP = Ptr.node a := hseg1b.2
    have hE : evict s = { s with
        arena := (s.arena.set a { getE s a with nextP := Ptr.root }).set b
          { getE s b with prevP := Ptr.null, nextP := Ptr.null, inList := false },
        rootPrev := Ptr.node a,
        llen := s.llen - 1,
        dict := ddelete (getE s b).key s.dict,
        len := s.len - 1 } := by
      rw [evict_eq s b hll hrp hinb, removeElem_eq_of_last s a b hab hpb hnb]
    have hgeti : ∀ i, getE (evict s) i =
        if i = b then { getE s b with prevP := Ptr.null, nextP := Ptr.null, inList := false }
        else if i = a then { getE s a with nextP := Ptr.root }
        else getE s i := by
      intro i
      rw [hE]
      simp only [getE, List.getD_eq_getElem?_getD]
      rw [List.getElem?_set]
      rcases Decidable.em (b = i) with rfl | hne
      · rw [if_pos rfl, if_pos (by simp [List.length_set]; omega), if_pos rfl]
        rfl
      · rw [if_neg hne, if_neg (fun hcon : i = b => hne hcon.symm)]
        rw [List.getElem?_set]
        rcases Decidable.em (a = i) with rfl | hne2
        · rw [if_pos rfl, if_pos (by omega), if_pos rfl]
          rfl
        · rw [if_neg hne2, if_neg (fun hcon : i = a => hne2 hcon.symm)]
    have hkeyval : ∀ i, i ≠ b →
        (getE (evict s) i).key = (getE s i).key ∧
        (getE (evict s) i).value = (getE s i).value ∧
        (getE (evict s) i).inList = (getE s i).inList ∧
        (getE (evict s) i).prevP = (getE s i).prevP := by
      intro i hi
      rw [hgeti, if_neg hi]
      rcases Decidable.em (i = a) with rfl | hne
      · rw [if_pos rfl]
        exact ⟨rfl, rfl, rfl, rfl⟩
      · rw [if_neg hne]
        exact ⟨rfl, rfl, rfl, rfl⟩
    refine ⟨⟨?_, ?_, ?_, ?_, ?_, ?_, ?_, ?_⟩, ?_, ?_, ?_, ?_, ?_, ?_, ?_, ?_, ?_, ?_⟩
    · -- the new segment
      rw [show init₀ ++ [a] = init₀ ++ a :: [] from rfl]
      rw [segBetween_append_cons]
      refine ⟨?_, ?_, ?_⟩
      · -- transfer the prefix
        apply segBetween_of_agree s (evict s) Ptr.root init₀ (Ptr.node a)
        · intro r hr
          rcases hr with rfl | hr
          · simp only [ptrNext]
            rw [hE]
          · obtain ⟨j, hj, rfl⟩ := List.mem_map.mp hr
            have hjb : j ≠ b := fun hcon => hbni (hcon ▸ List.mem_append_left _ hj)
            have hja : j ≠ a := by
              intro hcon
              subst hcon
              rw [List.nodup_append] at hndi
              exact hndi.2.2 hj (by simp)
            simp only [ptrNext, hgeti]
            rw [if_neg hjb, if_neg hja]
        · intro r hr
          rcases hr with rfl | hr
          · simp only [ptrPrev]
            exact (hkeyval a (Ne.symm hab)).2.2.2
          · obtain ⟨j, hj, rfl⟩ := List.mem_map.mp hr
            have hjb : j ≠ b := fun hcon => hbni (hcon ▸ List.mem_append_left _ hj)
            have hja : j ≠ a := by
              intro hcon
              subst hcon
              rw [List.nodup_append] at hndi
              exact hndi.2.2 hj (by simp)
            simp only [ptrPrev, hgeti]
            rw [if_neg hjb, if_neg hja]
        · exact hseg1a
      · simp only [ptrNext, hgeti]
        rw [if_neg (fun hcon : a = b => hab hcon.symm)]
        simp
      · simp only [ptrPrev]
        rw [hE]
    · exact hndi
    · intro h hm
      have : (evict s).arena.length = s.arena.length := by
        rw [hE]
        simp
      rw [this]
      exact hbound h (List.mem_append_left _ hm)
    · intro h hm
      have hhb : h ≠ b := fun hcon => hbni (hcon ▸ hm)
      rw [(hkeyval h hhb).2.2.1]
      exact hin h (List.mem_append_left _ hm)
    · rw [hE]
      simp only [List.length_append, List.length_cons, List.length_nil] at hllen
      simp only [List.length_append, List.length_cons, List.length_nil]
      omega
    · rw [hE]
      simp only [List.length_append, List.length_cons, List.length_nil] at hlen
      simp only [List.length_append, List.length_cons, List.length_nil]
      rw [hlen]
      push_cast
      ring
    · -- the index permutation after deletion
      have hfil : List.Perm ((evict s).dict)
          ((List.map (fun h => ((getE s h).key, h)) (init₀ ++ [a] ++ [b])).filter
            (fun p => p.1 ≠ (getE s b).key)) := by
        rw [hE]
        exact hperm.filter _
      have heval : (List.map (fun h => ((getE s h).key, h)) (init₀ ++ [a] ++ [b])).filter
          (fun p => p.1 ≠ (getE s b).key) =
          List.map (fun h => ((getE s h).key, h)) (init₀ ++ [a]) := by
        rw [List.map_append, List.filter_append]
        have h1 : (List.map (fun h => ((getE s h).key, h)) [b]).filter
            (fun p => p.1 ≠ (getE s b).key) = [] := by
          simp [List.filter]
        have h2 : (List.map (fun h => ((getE s h).key, h)) (init₀ ++ [a])).filter
            (fun p => p.1 ≠ (getE s b).key) =
            List.map (fun h => ((getE s h).key, h)) (init₀ ++ [a]) := by
          rw [List.filter_eq_self]
          intro p hp
          obtain ⟨j, hj, rfl⟩ := List.mem_map.mp hp
          simp only [decide_eq_true_eq, ne_eq]
          intro hcon
          exact hkbni (hcon ▸ List.mem_map_of_mem _ hj)
        rw [h1, h2, List.append_nil]
      have hcongr : List.map (fun h => ((getE s h).key, h)) (init₀ ++ [a]) =
          List.map (fun h => ((getE (evict s) h).key, h)) (init₀ ++ [a]) := by
        apply List.map_congr_left
        intro j hj
        have hjb : j ≠ b := fun hcon => hbni (hcon ▸ hj)
        rw [(hkeyval j hjb).1]
      exact (hfil.trans (by rw [heval, hcongr])).trans (List.Perm.refl _)
    · rw [hE]
      exact ((List.filter_sublist _).map Prod.fst).nodup hdk
    · rw [hE]
    · rw [hE]
    · exact fun i hi => ⟨(hkeyval i hi).1, (hkeyval i hi).2.1⟩
    · rw [hE]
    · rw [hE]
    · rw [hE]
    · rw [hE]
    · rw [hE]
    · rw [hE]
    · rw [hE]
      simp

theorem getE_setPrevOf_ne (s : Memoria K V) (p v : Ptr) (i : Nat) (hp : p ≠ Ptr.node i) :
    getE (setPrevOf s p v) i = getE s i := by
  cases p with
  | null => rfl
  | root => rfl
  | node j =>
      rw [getE_setPrevOf_node]
      rw [if_neg (fun hc => hp (congrArg Ptr.node hc.1.symm))]

theorem getE_setNextOf_ne (s : Memoria K V) (p v : Ptr) (i : Nat) (hp : p ≠ Ptr.node i) :
    getE (setNextOf s p v) i = getE s i := by
  cases p with
  | null => rfl
  | root => rfl
  | node j =>
      rw [getE_setNextOf_node]
      rw [if_neg (fun hc => hp (congrArg Ptr.node hc.1.symm))]

/-- Closed form for a real `MoveToFront` (the element is linked, not
already at the front, and its neighbours are as given). -/
theorem moveToFront_eq (s : Memoria K V) (h a : Nat)
    (hinh : (getE s h).inList = true)
    (hfront : s.rootNext ≠ Ptr.node h)
    (hpa : (getE s h).prevP = Ptr.node a)
    (hah : a ≠ h)
    (hnxt : (getE s h).nextP ≠ Ptr.node h)
    (hb : h < s.arena.length) :
    moveToFront s h =
      setPrevOf
        { setE (setPrevOf (setNextOf s (Ptr.node a) (getE s h).nextP)
                  ((getE s h).nextP) (Ptr.node a)) h
            { getE s h with prevP := Ptr.root, nextP := s.rootNext }
          with rootNext := Ptr.node h }
        s.rootNext (Ptr.node h) := by
  have hnf : ¬((getE s h).inList = false) := by
    rw [hinh]
    simp
  have hg1 : getE (setNextOf s (Ptr.node a) (getE s h).nextP) h = getE s h := by
    rw [getE_setNextOf_node]
    rw [if_neg (fun hc => hah hc.1.symm)]
  have hg2 : getE (setPrevOf (setNextOf s (Ptr.node a) (getE s h).nextP)
      ((getE s h).nextP) (Ptr.node a)) h = getE s h := by
    rw [getE_setPrevOf_ne _ _ _ _ hnxt]
    exact hg1
  have hb2 : h < (setPrevOf (setNextOf s (Ptr.node a) (getE s h).nextP)
      ((getE s h).nextP) (Ptr.node a)).arena.length := by
    rw [setPrevOf_arena_length, setNextOf_arena_length]
    exact hb
  have hrn3 : (setE (setPrevOf (setNextOf s (Ptr.node a) (getE s h).nextP)
      ((getE s h).nextP) (Ptr.node a)) h { getE s h with prevP := Ptr.root }).rootNext =
      s.rootNext := by
    rw [setE_rootNext, rootNext_setPrevOf, rootNext_setNextOf_node]
  have hg3 : getE (setE (setPrevOf (setNextOf s (Ptr.node a) (getE s h).nextP)
      ((getE s h).nextP) (Ptr.node a)) h { getE s h with prevP := Ptr.root }) h =
      { getE s h with prevP := Ptr.root } := by
    rw [getE_setE]
    rw [if_pos ⟨rfl, hb2⟩]
  have hcollapse : setE (setE (setPrevOf (setNextOf s (Ptr.node a) (getE s h).nextP)
        ((getE s h).nextP) (Ptr.node a)) h { getE s h with prevP := Ptr.root }) h
      { getE (setE (setPrevOf (setNextOf s (Ptr.node a) (getE s h).nextP)
          ((getE s h).nextP) (Ptr.node a)) h { getE s h with prevP := Ptr.root }) h
        with nextP := s.rootNext } =
      setE (setPrevOf (setNextOf s (Ptr.node a) (getE s h).nextP)
        ((getE s h).nextP) (Ptr.node a)) h
      { getE s h with prevP := Ptr.root, nextP := s.rootNext } := by
    rw [hg3]
    simp only [setE, List.set_set]
  have hg4 : getE (setE (setPrevOf (setNextOf s (Ptr.node a) (getE s h).nextP)
      ((getE s h).nextP) (Ptr.node a)) h
      { getE s h with prevP := Ptr.root, nextP := s.rootNext }) h =
      { getE s h with prevP := Ptr.root, nextP := s.rootNext } := by
    rw [getE_setE]
    rw [if_pos ⟨rfl, hb2⟩]
  have hg5 : getE (setNextOf (setE (setPrevOf (setNextOf s (Ptr.node a) (getE s h).nextP)
      ((getE s h).nextP) (Ptr.node a)) h
      { getE s h with prevP := Ptr.root, nextP := s.rootNext }) Ptr.root (Ptr.node h)) h =
      getE (setE (setPrevOf (setNextOf s (Ptr.node a) (getE s h).nextP)
      ((getE s h).nextP) (Ptr.node a)) h
      { getE s h with prevP := Ptr.root, nextP := s.rootNext }) h := rfl
  simp only [moveToFront]
  rw [if_neg hnf, if_neg hfront, hpa, hg1, hpa, hg2, hrn3, hcollapse, hg4]
  rw [show ({ getE s h with prevP := Ptr.root, nextP := s.rootNext } : Elem K V).prevP =
    Ptr.root from rfl]
  rw [hg5, hg4]
  rw [show ({ getE s h with prevP := Ptr.root, nextP := s.rootNext } : Elem K V).nextP =
    s.rootNext from rfl]
  rfl

theorem getE_key_setE (s : Memoria K V) (hd : Nat) (x : Elem K V) (i : Nat)
    (hk : x.key = (getE s hd).key) :
    (getE (setE s hd x) i).key = (getE s i).key := by
  rw [getE_setE]
  rcases Decidable.em (i = hd ∧ hd < s.arena.length) with hc | hc
  · rw [if_pos hc, hk, hc.1]
  · rw [if_neg hc]

theorem getE_value_setE (s : Memoria K V) (hd : Nat) (x : Elem K V) (i : Nat)
    (hk : x.value = (getE s hd).value) :
    (getE (setE s hd x) i).value = (getE s i).value := by
  rw [getE_setE]
  rcases Decidable.em (i = hd ∧ hd < s.arena.length) with hc | hc
  · rw [if_pos hc, hk, hc.1]
  · rw [if_neg hc]

theorem getE_inList_setE (s : Memoria K V) (hd : Nat) (x : Elem K V) (i : Nat)
    (hk : x.inList = (getE s hd).inList) :
    (getE (setE s hd x) i).inList = (getE s i).inList := by
  rw [getE_setE]
  rcases Decidable.em (i = hd ∧ hd < s.arena.length) with hc | hc
  · rw [if_pos hc, hk, hc.1]
  · rw [if_neg hc]

theorem getE_updateRootNext (s : Memoria K V) (v : Ptr) (i : Nat) :
    getE { s with rootNext := v } i = getE s i := rfl

theorem rootPrev_updateRootNext (s : Memoria K V) (v : Ptr) :
    ({ s with rootNext := v } : Memoria K V).rootPrev = s.rootPrev := rfl

theorem arenaLength_updateRootNext (s : Memoria K V) (v : Ptr) :
    ({ s with rootNext := v } : Memoria K V).arena.length = s.arena.length := rfl

/-- `MoveToFront` of a non-head linked element rotates the chain:
the element moves to the front and everything else keeps its order.
`pre` is the part of the chain in front of the element. -/
theorem Wf_moveToFront_core (s : Memoria K V) (pre post : List Nat) (h : Nat)
    (w : Wf s (pre ++ h :: post)) (hpre : pre ≠ []) :
    Wf (moveToFront s h) (h :: (pre ++ post)) ∧
    (moveToFront s h).dict = s.dict ∧
    (moveToFront s h).len = s.len ∧
    (moveToFront s h).capacity = s.capacity ∧
    (moveToFront s h).closed = s.closed ∧
    (moveToFront s h).doneClosed = s.doneClosed ∧
    (moveToFront s h).ch = s.ch ∧
    (moveToFront s h).onceDone = s.onceDone ∧
    (moveToFront s h).stopped = s.stopped ∧
    (moveToFront s h).arena.length = s.arena.length ∧
    (∀ i, (getE (moveToFront s h) i).key = (getE s i).key ∧
          (getE (moveToFront s h) i).value = (getE s i).value) := by
  obtain ⟨hseg, hnd, hbound, hin, hllen, hlen, hperm, hdk⟩ := w
  have hb : h < s.arena.length := hbound h (by simp)
  have hinh : (getE s h).inList = true := hin h (by simp)
  have hndparts : pre.Nodup ∧ (h :: post).Nodup ∧ pre.Disjoint (h :: post) := by
    rw [List.nodup_append] at hnd
    exact hnd
  obtain ⟨hndPre, hndHP, hdisj⟩ := hndparts
  have hhnp : h ∉ pre := fun hm => hdisj hm (List.mem_cons_self _ _)
  have hpostnp : ∀ j ∈ pre, j ∉ post := fun j hj hjp => hdisj hj (List.mem_cons_of_mem _ hjp)
  have hhnpost : h ∉ post := (List.nodup_cons.mp hndHP).1
  have hndPost : post.Nodup := (List.nodup_cons.mp hndHP).2
  -- decompose the chain around `h`
  have hsplit := (segBetween_append_cons s pre h post Ptr.root Ptr.root).mp hseg
  obtain ⟨hsegPre, hsegPost⟩ := hsplit
  -- `pre` has a head `q0` and a last element `a`
  obtain ⟨q0, pre', rfl⟩ : ∃ q0 pre', pre = q0 :: pre' := by
    cases pre with
    | nil => exact absurd rfl hpre
    | cons q0 pre' => exact ⟨q0, pre', rfl⟩
  have hrn : s.rootNext = Ptr.node q0 := hsegPre.1
  obtain ⟨pre₀, a, hpreform⟩ : ∃ pre₀ a, q0 :: pre' = pre₀ ++ [a] := by
    rcases List.eq_nil_or_concat (q0 :: pre') with hnil | ⟨L, b, hc⟩
    · simp at hnil
    · rw [List.concat_eq_append] at hc
      exact ⟨L, b, hc⟩
  have hamem : a ∈ q0 :: pre' := by
    rw [hpreform]
    simp
  have hq0mem : q0 ∈ q0 :: pre' := List.mem_cons_self _ _
  have hah : a ≠ h := fun hc => hhnp (hc ▸ hamem)
  have hq0h : q0 ≠ h := fun hc => hhnp (hc ▸ hq0mem)
  have hba : a < s.arena.length := hbound a (List.mem_append_left _ hamem)
  have hbq0 : q0 < s.arena.length := hbound q0 (List.mem_append_left _ hq0mem)
  -- the prev pointer of `h` is the last element of `pre`
  have hpa : (getE s h).prevP = Ptr.node a := by
    rw [hpreform] at hsegPre
    have := (segBetween_append_cons s pre₀ a [] Ptr.root (Ptr.node h)).mp hsegPre
    exact this.2.2
  -- the shape of the next pointer of `h`
  have hnxtne : ∀ i, i ∉ post → (getE s h).nextP ≠ Ptr.node i := by
    intro i hip hcon
    cases post with
    | nil =>
        have hroot : (getE s h).nextP = Ptr.root := hsegPost.1
        rw [hroot] at hcon
        exact Ptr.noConfusion hcon
    | cons p0 post' =>
        have hnode : (getE s h).nextP = Ptr.node p0 := hsegPost.1
        rw [hnode] at hcon
        obtain rfl : p0 = i := Ptr.node.inj hcon
        exact hip (List.mem_cons_self _ _)
  have hfront : s.rootNext ≠ Ptr.node h := by
    rw [hrn]
    exact fun hc => hq0h (Ptr.node.inj hc)
  have hnxth : (getE s h).nextP ≠ Ptr.node h := hnxtne h hhnpost
  have hM := moveToFront_eq s h a hinh hfront hpa hah hnxth hb
  -- lengths through the write chain
  have hlen2 : (setPrevOf (setNextOf s (Ptr.node a) (getE s h).nextP)
      ((getE s h).nextP) (Ptr.node a)).arena.length = s.arena.length := by
    simp
  have hMlen : (moveToFront s h).arena.length = s.arena.length := by
    rw [hM, setPrevOf_arena_length, arenaLength_updateRootNext, setE_arena_length]
    exact hlen2
  -- reads on the moved state
  have hS1 : ∀ i, getE (setNextOf s (Ptr.node a) (getE s h).nextP) i =
      if i = a then { getE s a with nextP := (getE s h).nextP } else getE s i := by
    intro i
    rw [getE_setNextOf_node]
    rcases Decidable.em (i = a) with heq | hne
    · rw [if_pos ⟨heq, hba⟩, if_pos heq]
    · rw [if_neg (fun hc => hne hc.1), if_neg hne]
  have hS2 : ∀ i, (getE s h).nextP ≠ Ptr.node i →
      getE (setPrevOf (setNextOf s (Ptr.node a) (getE s h).nextP)
        ((getE s h).nextP) (Ptr.node a)) i =
      if i = a then { getE s a with nextP := (getE s h).nextP } else getE s i := by
    intro i hni
    rw [getE_setPrevOf_ne _ _ _ _ hni]
    exact hS1 i
  have hT4 : ∀ i, (getE s h).nextP ≠ Ptr.node i →
      getE (setE (setPrevOf (setNextOf s (Ptr.node a) (getE s h).nextP)
        ((getE s h).nextP) (Ptr.node a)) h
        { getE s h with prevP := Ptr.root, nextP := s.rootNext }) i =
      if i = h then { getE s h with prevP := Ptr.root, nextP := s.rootNext }
      else if i = a then { getE s a with nextP := (getE s h).nextP }
      else getE s i := by
    intro i hni
    rw [getE_setE]
    rcases Decidable.em (i = h) with heq | hne
    · rw [if_pos ⟨heq, by rw [hlen2]; exact hb⟩, if_pos heq]
    · rw [if_neg (fun hc => hne hc.1), if_neg hne]
      exact hS2 i hni
  have hMr : ∀ i, (getE s h).nextP ≠ Ptr.node i →
      getE (moveToFront s h) i =
      if i = q0 then
        { (if q0 = h then { getE s h with prevP := Ptr.root, nextP := s.rootNext }
           else if q0 = a then { getE s a with nextP := (getE s h).nextP }
           else getE s q0) with prevP := Ptr.node h }
      else if i = h then { getE s h with prevP := Ptr.root, nextP := s.rootNext }
      else if i = a then { getE s a with nextP := (getE s h).nextP }
      else getE s i := by
    intro i hni
    rw [hM, hrn]
    rw [getE_setPrevOf_node]
    have ht0 := hT4 q0 (hnxtne q0 (hpostnp q0 hq0mem))
    have hti := hT4 i hni
    rw [hrn] at ht0 hti
    rcases Decidable.em (i = q0) with heq | hne
    · rw [if_pos ⟨heq, by rw [arenaLength_updateRootNext, setE_arena_length, hlen2]; exact hbq0⟩]
      rw [getE_updateRootNext, ht0, if_pos heq]
    · rw [if_neg (fun hc => hne hc.1)]
      rw [getE_updateRootNext, hti, if_neg hne]
  -- field preservation
  have hxkey : ({ getE s h with prevP := Ptr.root, nextP := s.rootNext } : Elem K V).key =
      (getE (setPrevOf (setNextOf s (Ptr.node a) (getE s h).nextP)
        ((getE s h).nextP) (Ptr.node a)) h).key := by
    rw [getE_setPrevOf_ne _ _ _ _ hnxth, hS1 h, if_neg (fun hc => hah hc.symm)]
  have hxvalue : ({ getE s h with prevP := Ptr.root, nextP := s.rootNext } : Elem K V).value =
      (getE (setPrevOf (setNextOf s (Ptr.node a) (getE s h).nextP)
        ((getE s h).nextP) (Ptr.node a)) h).value := by
    rw [getE_setPrevOf_ne _ _ _ _ hnxth, hS1 h, if_neg (fun hc => hah hc.symm)]
  have hxinlist : ({ getE s h with prevP := Ptr.root, nextP := s.rootNext } : Elem K V).inList =
      (getE (setPrevOf (setNextOf s (Ptr.node a) (getE s h).nextP)
        ((getE s h).nextP) (Ptr.node a)) h).inList := by
    rw [getE_setPrevOf_ne _ _ _ _ hnxth, hS1 h, if_neg (fun hc => hah hc.symm)]
  have hkv : ∀ i, (getE (moveToFront s h) i).key = (getE s i).key ∧
      (getE (moveToFront s h) i).value = (getE s i).value ∧
      (getE (moveToFront s h) i).inList = (getE s i).inList := by
    intro i
    rw [hM]
    refine ⟨?_, ?_, ?_⟩
    · rw [getE_key_setPrevOf, getE_updateRootNext]
      rw [getE_key_setE _ _ _ _ hxkey]
      rw [getE_key_setPrevOf, getE_key_setNextOf]
    · rw [getE_value_setPrevOf, getE_updateRootNext]
      rw [getE_value_setE _ _ _ _ hxvalue]
      rw [getE_value_setPrevOf, getE_value_setNextOf]
    · rw [getE_inList_setPrevOf, getE_updateRootNext]
      rw [getE_inList_setE _ _ _ _ hxinlist]
      rw [getE_inList_setPrevOf, getE_inList_setNextOf]
  -- frames
  have hframes : (moveToFront s h).dict = s.dict ∧
      (moveToFront s h).len = s.len ∧
      (moveToFront s h).capacity = s.capacity ∧
      (moveToFront s h).closed = s.closed ∧
      (moveToFront s h).doneClosed = s.doneClosed ∧
      (moveToFront s h).ch = s.ch ∧
      (moveToFront s h).onceDone = s.onceDone ∧
      (moveToFront s h).stopped = s.stopped ∧
      (moveToFront s h).llen = s.llen := by
    rw [hM]
    refine ⟨?_, ?_, ?_, ?_, ?_, ?_, ?_, ?_, ?_⟩ <;> simp
  -- key reads for the assembly
  have hMh : getE (moveToFront s h) h =
      { getE s h with prevP := Ptr.root, nextP := s.rootNext } := by
    rw [hMr h hnxth, if_neg (fun hc => hq0h hc.symm), if_pos rfl]
  have hMq0prev : (getE (moveToFront s h) q0).prevP = Ptr.node h := by
    rw [hMr q0 (hnxtne q0 (hpostnp q0 hq0mem)), if_pos rfl]
  have hManext : (getE (moveToFront s h) a).nextP = (getE s h).nextP := by
    rw [hMr a (hnxtne a (hpostnp a hamem))]
    rcases Decidable.em (a = q0) with heq | hne
    · rw [if_pos heq, if_neg hq0h, if_pos heq.symm]
    · rw [if_neg hne, if_neg hah, if_pos rfl]
  have hMother : ∀ i, i ≠ q0 → i ≠ h → i ≠ a → (getE s h).nextP ≠ Ptr.node i →
      getE (moveToFront s h) i = getE s i := by
    intro i h1 h2 h3 h4
    rw [hMr i h4, if_neg h1, if_neg h2, if_neg h3]
  have hMrootNext : (moveToFront s h).rootNext = Ptr.node h := by
    rw [hM]
    simp
  -- the new chain
  have hchain : segBetween (moveToFront s h) Ptr.root (h :: ((q0 :: pre') ++ post)) Ptr.root := by
    refine ⟨?_, ?_, ?_⟩
    · simp only [ptrNext]
      exact hMrootNext
    · simp only [ptrPrev, hMh]
    · -- segBetween M (node h) (pre ++ post) root
      have hpostpart : segBetween (moveToFront s h) (Ptr.node a) post Ptr.root := by
        cases post with
        | nil =>
            have hnxtr : (getE s h).nextP = Ptr.root := hsegPost.1
            refine ⟨?_, ?_⟩
            · simp only [ptrNext]
              rw [hManext, hnxtr]
            · simp only [ptrPrev]
              rw [hM, hrn, rootPrev_setPrevOf_node, rootPrev_updateRootNext, setE_rootPrev,
                hnxtr, rootPrev_setPrevOf_root]
        | cons p0 post' =>
            have hnxtp : (getE s h).nextP = Ptr.node p0 := hsegPost.1
            have hp0post : p0 ∈ p0 :: post' := List.mem_cons_self _ _
            have hp0a : p0 ≠ a := fun hc => hpostnp a hamem (hc ▸ hp0post)
            have hp0h : p0 ≠ h := fun hc => hhnpost (hc ▸ hp0post)
            have hp0q0 : p0 ≠ q0 := fun hc => hpostnp q0 hq0mem (hc ▸ hp0post)
            have hbp0 : p0 < s.arena.length :=
              hbound p0 (List.mem_append_right _ (List.mem_cons_of_mem _ hp0post))
            have hMp0 : getE (moveToFront s h) p0 =
                { getE s p0 with prevP := Ptr.node a } := by
              have hs1p := hS1 p0
              rw [if_neg hp0a] at hs1p
              rw [hM, hrn]
              rw [getE_setPrevOf_ne _ _ _ _ (fun hc => hp0q0 (Ptr.node.inj hc).symm)]
              rw [getE_updateRootNext]
              rw [getE_setE, if_neg (fun hc => hp0h hc.1)]
              rw [hnxtp] at hs1p ⊢
              rw [getE_setPrevOf_node,
                if_pos ⟨rfl, by rw [setNextOf_arena_length]; exact hbp0⟩]
              rw [hs1p]
            refine ⟨?_, ?_, ?_⟩
            · simp only [ptrNext]
              rw [hManext, hnxtp]
            · simp only [ptrPrev, hMp0]
            · -- transfer the tail of post
              apply segBetween_of_agree s (moveToFront s h) (Ptr.node p0) post' Ptr.root
              · intro r hr
                rcases hr with rfl | hr
                · simp only [ptrNext, hMp0]
                · obtain ⟨j, hj, rfl⟩ := List.mem_map.mp hr
                  have hjpost : j ∈ p0 :: post' := List.mem_cons_of_mem _ hj
                  have hjq0 : j ≠ q0 := fun hc => hpostnp q0 hq0mem (hc ▸ hjpost)
                  have hjh : j ≠ h := fun hc => hhnpost (hc ▸ hjpost)
                  have hja : j ≠ a := fun hc => hpostnp a hamem (hc ▸ hjpost)
                  have hjp0 : j ≠ p0 := fun hc => (List.nodup_cons.mp hndPost).1 (hc ▸ hj)
                  simp only [ptrNext]
                  rw [hMother j hjq0 hjh hja
                    (by rw [hnxtp]; exact fun hc => hjp0 (Ptr.node.inj hc).symm)]
              · intro r hr
                rcases hr with rfl | hr
                · simp only [ptrPrev]
                  rw [hM, hrn, rootPrev_setPrevOf_node, rootPrev_updateRootNext, setE_rootPrev,
                    hnxtp, rootPrev_setPrevOf_node, rootPrev_setNextOf]
                · obtain ⟨j, hj, rfl⟩ := List.mem_map.mp hr
                  have hjpost : j ∈ p0 :: post' := List.mem_cons_of_mem _ hj
                  have hjq0 : j ≠ q0 := fun hc => hpostnp q0 hq0mem (hc ▸ hjpost)
                  have hjh : j ≠ h := fun hc => hhnpost (hc ▸ hjpost)
                  have hja : j ≠ a := fun hc => hpostnp a hamem (hc ▸ hjpost)
                  have hjp0 : j ≠ p0 := fun hc => (List.nodup_cons.mp hndPost).1 (hc ▸ hj)
                  simp only [ptrPrev]
                  rw [hMother j hjq0 hjh hja
                    (by rw [hnxtp]; exact fun hc => hjp0 (Ptr.node.inj hc).symm)]
              · exact hsegPost.2.2
      -- split on the shape of `pre₀`
      cases pre₀ with
      | nil =>
          have hinj : q0 :: pre' = a :: [] := by simpa using hpreform
          have haq0 : q0 = a := (List.cons_eq_cons.mp hinj).1
          have hpre' : pre' = [] := (List.cons_eq_cons.mp hinj).2
          subst hpre'
          refine ⟨?_, ?_, ?_⟩
          · simp only [ptrNext, hMh]
            rw [hrn, haq0]
          · simp only [ptrPrev]
            exact hMq0prev
          · show segBetween (moveToFront s h) (Ptr.node q0) post Ptr.root
            rw [haq0]
            exact hpostpart
      | cons q rest =>
          have hinj : q0 :: pre' = q :: (rest ++ [a]) := by simpa using hpreform
          have hqq0 : q0 = q := (List.cons_eq_cons.mp hinj).1
          have hpre' : pre' = rest ++ [a] := (List.cons_eq_cons.mp hinj).2
          subst hpre'
          have hq0a : q0 ≠ a := by
            intro hc
            rw [List.nodup_cons] at hndPre
            exact hndPre.1 (hc ▸ (by simp : a ∈ rest ++ [a]))
          refine ⟨?_, ?_, ?_⟩
          · simp only [ptrNext, hMh]
            rw [hrn]
          · simp only [ptrPrev]
            exact hMq0prev
          · -- segBetween M (node q0) ((rest ++ [a]) ++ post) root
            show segBetween (moveToFront s h) (Ptr.node q0) ((rest ++ [a]) ++ post) Ptr.root
            have hshape : (rest ++ [a]) ++ post = rest ++ a :: post := by
              simp
            rw [hshape, segBetween_append_cons]
            constructor
            · -- transfer  segBetween s (node q0) rest (node a)
              have hsegpre : segBetween s (Ptr.node q0) rest (Ptr.node a) := by
                have h1 := hsegPre.2.2
                have h2 : segBetween s (Ptr.node q0) (rest ++ [a]) (Ptr.node h) := h1
                have h3 := (segBetween_append_cons s rest a [] (Ptr.node q0) (Ptr.node h)).mp
                  (by simpa using h2)
                exact h3.1
              apply segBetween_of_agree s (moveToFront s h) (Ptr.node q0) rest (Ptr.node a)
              · intro r hr
                rcases hr with rfl | hr
                · simp only [ptrNext]
                  rw [hMr q0 (hnxtne q0 (hpostnp q0 hq0mem)), if_pos rfl]
                  rw [if_neg hq0h, if_neg hq0a]
                · obtain ⟨j, hj, rfl⟩ := List.mem_map.mp hr
                  have hjpre : j ∈ q0 :: (rest ++ [a]) := by
                    simp [hj]
                  have hjq0 : j ≠ q0 := by
                    intro hc
                    rw [List.nodup_cons] at hndPre
                    exact hndPre.1 (hc ▸ (by simp [hj] : j ∈ rest ++ [a]))
                  have hjh : j ≠ h := fun hc => hhnp (hc ▸ hjpre)
                  have hja : j ≠ a := by
                    intro hc
                    rw [List.nodup_cons, List.nodup_append] at hndPre
                    exact hndPre.2.2.2 hj (hc ▸ List.mem_singleton_self a)
                  simp only [ptrNext]
                  rw [hMother j hjq0 hjh hja (hnxtne j (hpostnp j hjpre))]
              · intro r hr
                rcases hr with rfl | hr
                · simp only [ptrPrev]
                  rw [hMr a (hnxtne a (hpostnp a hamem)), if_neg (fun hc => hq0a hc.symm),
                    if_neg hah, if_pos rfl]
                · obtain ⟨j, hj, rfl⟩ := List.mem_map.mp hr
                  have hjpre : j ∈ q0 :: (rest ++ [a]) := by
                    simp [hj]
                  have hjq0 : j ≠ q0 := by
                    intro hc
                    rw [List.nodup_cons] at hndPre
                    exact hndPre.1 (hc ▸ (by simp [hj] : j ∈ rest ++ [a]))
                  have hjh : j ≠ h := fun hc => hhnp (hc ▸ hjpre)
                  have hja : j ≠ a := by
                    intro hc
                    rw [List.nodup_cons, List.nodup_append] at hndPre
                    exact hndPre.2.2.2 hj (hc ▸ List.mem_singleton_self a)
                  simp only [ptrPrev]
                  rw [hMother j hjq0 hjh hja (hnxtne j (hpostnp j hjpre))]
              · exact hsegpre
            · exact hpostpart
  -- assemble the invariant
  have hpermchain : List.Perm ((q0 :: pre') ++ h :: post) (h :: ((q0 :: pre') ++ post)) :=
    List.perm_middle
  refine ⟨⟨hchain, ?_, ?_, ?_, ?_, ?_, ?_, ?_⟩, hframes.1, hframes.2.1, hframes.2.2.1,
    hframes.2.2.2.1, hframes.2.2.2.2.1, hframes.2.2.2.2.2.1, hframes.2.2.2.2.2.2.1,
    hframes.2.2.2.2.2.2.2.1, hMlen, fun i => ⟨(hkv i).1, (hkv i).2.1⟩⟩
  · exact hpermchain.nodup_iff.mp hnd
  · intro j hj
    rw [hMlen]
    exact hbound j (hpermchain.symm.subset hj)
  · intro j hj
    rw [(hkv j).2.2]
    exact hin j (hpermchain.symm.subset hj)
  · rw [hframes.2.2.2.2.2.2.2.2, hllen]
    exact hpermchain.length_eq
  · rw [hframes.2.1, hlen]
    rw [hpermchain.length_eq]
  · rw [hframes.1]
    have hmapeq : ((h :: ((q0 :: pre') ++ post)).map fun j => ((getE (moveToFront s h) j).key, j)) =
        ((h :: ((q0 :: pre') ++ post)).map fun j => ((getE s j).key, j)) := by
      apply List.map_congr_left
      intro j _
      rw [(hkv j).1]
    rw [hmapeq]
    exact hperm.trans (hpermchain.map _)
  · rw [hframes.1]
    exact hdk

/-- `MoveToFront` of any chain member: the member moves to the head
of the chain (a no-op when it is already there). -/
theorem Wf_moveToFront (s : Memoria K V) (hs : List Nat) (h : Nat)
    (w : Wf s hs) (hmem : h ∈ hs) :
    Wf (moveToFront s h) (h :: hs.erase h) ∧
    (moveToFront s h).dict = s.dict ∧
    (moveToFront s h).len = s.len ∧
    (moveToFront s h).capacity = s.capacity ∧
    (moveToFront s h).closed = s.closed ∧
    (moveToFront s h).doneClosed = s.doneClosed ∧
    (moveToFront s h).ch = s.ch ∧
    (moveToFront s h).onceDone = s.onceDone ∧
    (moveToFront s h).stopped = s.stopped ∧
    (moveToFront s h).arena.length = s.arena.length ∧
    (∀ i, (getE (moveToFront s h) i).key = (getE s i).key ∧
          (getE (moveToFront s h) i).value = (getE s i).value) := by
  cases hs with
  | nil => simp at hmem
  | cons h₀ t =>
      rcases Decidable.em (h = h₀) with rfl | hne
      · -- already at the front: `MoveToFront` is a no-op
        have hrn : s.rootNext = Ptr.node h := w.1.1
        have hinh : (getE s h).inList = true := w.2.2.2.1 h (by simp)
        have hmv : moveToFront s h = s := by
          simp only [moveToFront]
          rw [if_neg (by rw [hinh]; simp), if_pos hrn]
        rw [hmv, List.erase_cons_head]
        exact ⟨w, rfl, rfl, rfl, rfl, rfl, rfl, rfl, rfl, rfl, fun i => ⟨rfl, rfl⟩⟩
      · -- in the interior or at the back
        have hmt : h ∈ t := by
          rcases List.mem_cons.mp hmem with hc | hc
          · exact absurd hc hne
          · exact hc
        obtain ⟨t1, t2, rfl⟩ := List.append_of_mem hmt
        have hw : Wf s ((h₀ :: t1) ++ h :: t2) := by
          simpa using w
        have hcore := Wf_moveToFront_core s (h₀ :: t1) t2 h hw (by simp)
        have herase : (h₀ :: (t1 ++ h :: t2)).erase h = (h₀ :: t1) ++ t2 := by
          have hnp : h ∉ h₀ :: t1 := by
            intro hc
            have hnd := w.2.1
            rcases List.mem_cons.mp hc with hc1 | hc2
            · exact hne hc1
            · rw [show h₀ :: (t1 ++ h :: t2) = (h₀ :: t1) ++ h :: t2 from rfl,
                List.nodup_append] at hnd
              exact hnd.2.2 (List.mem_cons_of_mem _ hc2) (List.mem_cons_self _ _)
          rw [show h₀ :: (t1 ++ h :: t2) = (h₀ :: t1) ++ h :: t2 from rfl,
            List.erase_append_right _ hnp, List.erase_cons_head]
        rw [herase]
        exact hcore

/-- Overwriting the stored value of a linked element preserves the
invariant and every other observation. -/
theorem Wf_setValue (s : Memoria K V) (hs : List Nat) (h : Nat) (v : V)
    (w : Wf s hs) (hb : h < s.arena.length) :
    Wf (setE s h { getE s h with value := v }) hs ∧
    (setE s h { getE s h with value := v }).dict = s.dict ∧
    (setE s h { getE s h with value := v }).len = s.len ∧
    (getE (setE s h { getE s h with value := v }) h).value = v ∧
    (∀ i, (getE (setE s h { getE s h with value := v }) i).key = (getE s i).key) := by
  obtain ⟨hseg, hnd, hbound, hin, hllen, hlen, hperm, hdk⟩ := w
  have hgeti : ∀ i, getE (setE s h { getE s h with value := v }) i =
      if i = h then { getE s h with value := v } else getE s i := by
    intro i
    rw [getE_setE]
    rcases Decidable.em (i = h) with heq | hne
    · rw [if_pos ⟨heq, hb⟩, if_pos heq]
    · rw [if_neg (fun hc => hne hc.1), if_neg hne]
  have hkey : ∀ i, (getE (setE s h { getE s h with value := v }) i).key = (getE s i).key := by
    intro i
    rw [hgeti]
    rcases Decidable.em (i = h) with heq | hne
    · rw [if_pos heq, heq]
    · rw [if_neg hne]
  have hptrn : ∀ r, ptrNext (setE s h { getE s h with value := v }) r = ptrNext s r := by
    intro r
    cases r with
    | null => rfl
    | root => rfl
    | node j =>
        simp only [ptrNext, hgeti]
        rcases Decidable.em (j = h) with heq | hne
        · rw [if_pos heq, heq]
        · rw [if_neg hne]
  have hptrp : ∀ r, ptrPrev (setE s h { getE s h with value := v }) r = ptrPrev s r := by
    intro r
    cases r with
    | null => rfl
    | root => rfl
    | node j =>
        simp only [ptrPrev, hgeti]
        rcases Decidable.em (j = h) with heq | hne
        · rw [if_pos heq, heq]
        · rw [if_neg hne]
  refine ⟨⟨?_, hnd, ?_, ?_, ?_, ?_, ?_, ?_⟩, rfl, rfl, ?_, hkey⟩
  · exact segBetween_of_agree s _ Ptr.root hs Ptr.root (fun r _ => hptrn r)
      (fun r _ => hptrp r) hseg
  · intro j hj
    rw [setE_arena_length]
    exact hbound j hj
  · intro j hj
    rw [hgeti]
    rcases Decidable.em (j = h) with heq | hne
    · rw [if_pos heq]
      simpa [heq] using hin j hj
    · rw [if_neg hne]
      exact hin j hj
  · rw [setE_llen]
    exact hllen
  · rw [setE_len]
    exact hlen
  · rw [setE_dict]
    have hmapeq : (hs.map fun j => ((getE (setE s h { getE s h with value := v }) j).key, j)) =
        (hs.map fun j => ((getE s j).key, j)) := by
      apply List.map_congr_left
      intro j _
      rw [hkey j]
    rw [hmapeq]
    exact hperm
  · rw [setE_dict]
    exact hdk
  · rw [hgeti, if_pos rfl]

theorem Get_found (s : Memoria K V) (k : K) (h : Nat)
    (hc : s.closed = false) (hd : s.doneClosed = false) (hl : dlookup k s.dict = some h) :
    (Get k s).1 = ((getE s h).value, true) := by
  simp only [Get, hc, hd, hl, Bool.false_eq_true, if_false]
  split <;> rfl

theorem Get_none (s : Memoria K V) (k : K)
    (hc : s.closed = false) (hl : dlookup k s.dict = none) :
    (Get k s).1 = (default, false) ∧ (Get k s).2 = s := by
  constructor <;> simp [Get, hc, hl]

theorem Get_closed (s : Memoria K V) (k : K) (hc : s.closed = true) :
    (Get k s).1 = (default, false) ∧ (Get k s).2 = s := by
  constructor <;> simp [Get, hc]

theorem Wf.lookup_none_of {s : Memoria K V} {hs : List Nat} (w : Wf s hs) {k : K}
    (hk : ∀ h ∈ hs, (getE s h).key ≠ k) : dlookup k s.dict = none := by
  cases hl : dlookup k s.dict with
  | none => rfl
  | some h =>
      obtain ⟨hmem, hkey⟩ := w.lookup_some hl
      exact absurd hkey (hk h hmem)

theorem Put_fresh_no_evict (s : Memoria K V) (hs : List Nat) (k : K) (v : V)
    (w : Wf s hs) (hc : s.closed = false) (hl : dlookup k s.dict = none)
    (hcap : (hs.length : Int) + 1 ≤ s.capacity) :
    Put k v s = insState s k v := by
  obtain ⟨hcap', _, _, _, _, _, hlen', _, _, _⟩ := insState_basic s k v
  rw [Put_eq_of_fresh s k v hc hl]
  rw [if_neg]
  rw [hcap', hlen', w.2.2.2.2.2.1]
  omega

theorem Put_fresh_evict (s : Memoria K V) (hs : List Nat) (k : K) (v : V)
    (w : Wf s hs) (hc : s.closed = false) (hl : dlookup k s.dict = none)
    (hcap : s.capacity < (hs.length : Int) + 1) :
    Put k v s = evict (insState s k v) := by
  obtain ⟨hcap', _, _, _, _, _, hlen', _, _, _⟩ := insState_basic s k v
  rw [Put_eq_of_fresh s k v hc hl]
  rw [if_pos]
  rw [hcap', hlen', w.2.2.2.2.2.1]
  omega

/-- `putAll` runs a list of `Put` calls in order. -/
def putAll (l : List (K × V)) (s : Memoria K V) : Memoria K V :=
  l.foldl (fun t kv => Put kv.1 kv.2 t) s

theorem putAll_append_singleton (l : List (K × V)) (kv : K × V) (s : Memoria K V) :
    putAll (l ++ [kv]) s = Put kv.1 kv.2 (putAll l s) := by
  simp [putAll]

/-- The open empty cache returned by `New` for a positive capacity. -/
def initCache (c : Int) : Memoria K V :=
  { capacity := c, dict := [], rootPrev := Ptr.root, rootNext := Ptr.root,
    llen := 0, arena := [], len := 0, ch := [], doneClosed := false,
    closed := false, onceDone := false, stopped := false }

theorem New_pos (c : Int) (hc : 0 < c) :
    New (K := K) (V := V) c = Except.ok (initCache c) := by
  rw [New, if_neg (by omega)]
  rfl

theorem Wf_initCache (c : Int) : Wf (initCache (K := K) (V := V) c) [] := by
  refine ⟨⟨rfl, rfl⟩, ?_, ?_, ?_, rfl, rfl, ?_, ?_⟩ <;> simp [initCache]

/-- Filling a fresh cache with distinct keys, while within capacity,
produces the canonical state: element `i` holds the `i`-th pair and
the chain is the insertion order reversed. -/
theorem putAll_inv (c : Int) :
    ∀ (kvs : List (K × V)), (kvs.map Prod.fst).Nodup → ((kvs.length : Int) ≤ c) →
    Wf (putAll kvs (initCache (K := K) (V := V) c)) ((List.range kvs.length).reverse) ∧
    (putAll kvs (initCache (K := K) (V := V) c)).capacity = c ∧
    (putAll kvs (initCache (K := K) (V := V) c)).closed = false ∧
    (putAll kvs (initCache (K := K) (V := V) c)).doneClosed = false ∧
    (putAll kvs (initCache (K := K) (V := V) c)).arena.length = kvs.length ∧
    (∀ i, (hi : i < kvs.length) →
      (getE (putAll kvs (initCache (K := K) (V := V) c)) i).key = (kvs.get ⟨i, hi⟩).1 ∧
      (getE (putAll kvs (initCache (K := K) (V := V) c)) i).value = (kvs.get ⟨i, hi⟩).2) := by
  intro kvs
  induction kvs using List.reverseRecOn with
  | nil =>
      intro _ _
      refine ⟨Wf_initCache c, rfl, rfl, rfl, rfl, ?_⟩
      intro i hi
      simp at hi
  | append_singleton l kv ih =>
      intro hnd hle
      have hndl : (l.map Prod.fst).Nodup := by
        rw [List.map_append, List.nodup_append] at hnd
        exact hnd.1
      have hfreshkey : kv.1 ∉ l.map Prod.fst := by
        rw [List.map_append, List.nodup_append] at hnd
        intro hmem
        exact hnd.2.2 hmem (by simp)
      have hlel : ((l.length : Int)) ≤ c := by
        simp only [List.length_append, List.length_singleton] at hle
        push_cast at hle ⊢
        omega
      obtain ⟨hwf, hcap, hclosed, hdone, halen, hkvs⟩ := ih hndl hlel
      have hfr : dlookup kv.1 (putAll l (initCache (K := K) (V := V) c)).dict = none := by
        apply hwf.lookup_none_of
        intro h hmem
        have hhlt : h < l.length := by
          rw [List.mem_reverse, List.mem_range] at hmem
          exact hmem
        rw [(hkvs h hhlt).1]
        intro hcon
        apply hfreshkey
        rw [← hcon]
        exact List.mem_map_of_mem _ (l.get_mem _ _)
      have hcapok : (((List.range l.length).reverse.length : Int)) + 1 ≤
          (putAll l (initCache (K := K) (V := V) c)).capacity := by
        rw [hcap]
        simp only [List.length_reverse, List.length_range]
        simp only [List.length_append, List.length_singleton] at hle
        push_cast at hle ⊢
        omega
      have hput : putAll (l ++ [kv]) (initCache (K := K) (V := V) c) =
          insState (putAll l (initCache (K := K) (V := V) c)) kv.1 kv.2 := by
        rw [putAll_append_singleton]
        exact Put_fresh_no_evict _ _ _ _ hwf hclosed hfr hcapok
      obtain ⟨hwf', hdict', hkeyn, hvaln, hpres⟩ :=
        Wf_insState (putAll l (initCache (K := K) (V := V) c))
          ((List.range l.length).reverse) kv.1 kv.2 hwf hfr
      obtain ⟨hcap', hclosed', hdone', _, _, _, _, _, halen', _⟩ :=
        insState_basic (putAll l (initCache (K := K) (V := V) c)) kv.1 kv.2
      have hchain : (putAll l (initCache (K := K) (V := V) c)).arena.length ::
          (List.range l.length).reverse = (List.range (l ++ [kv]).length).reverse := by
        rw [halen]
        simp [List.range_succ]
      refine ⟨?_, ?_, ?_, ?_, ?_, ?_⟩
      · rw [hput, ← hchain]
        exact hwf'
      · rw [hput, hcap', hcap]
      · rw [hput, hclosed', hclosed]
      · rw [hput, hdone', hdone]
      · rw [hput, halen', halen]
        simp
      · intro i hi
        rw [hput]
        have hi' : i < l.length + 1 := by simpa using hi
        rcases Decidable.em (i = l.length) with heq | hne
        · subst heq
          have hkeyn' : (getE (insState (putAll l (initCache (K := K) (V := V) c)) kv.1 kv.2)
              l.length).key = kv.1 := by
            rw [halen] at hkeyn
            exact hkeyn
          have hvaln' : (getE (insState (putAll l (initCache (K := K) (V := V) c)) kv.1 kv.2)
              l.length).value = kv.2 := by
            rw [halen] at hvaln
            exact hvaln
          have hgetl : ((l ++ [kv]).get ⟨l.length, hi⟩) = kv := by
            simp
          constructor
          · rw [hkeyn', hgetl]
          · rw [hvaln', hgetl]
        · have hilt : i < l.length := by omega
          have hne' : i ≠ (putAll l (initCache (K := K) (V := V) c)).arena.length := by
            rw [halen]
            exact hne
          have hgeta : ((l ++ [kv]).get ⟨i, hi⟩) = l.get ⟨i, hilt⟩ := by
            simp only [List.get_eq_getElem]
            exact List.getElem_append_left hilt
          constructor
          · rw [hgeta, (hpres i hne').1, (hkvs i hilt).1]
          · rw [hgeta, (hpres i hne').2, (hkvs i hilt).2]

theorem keys_nodup_get_ne (kvs : List (K × V)) (hnd : (kvs.map Prod.fst).Nodup)
    (i j : Nat) (hi : i < kvs.length) (hj : j < kvs.length) (hij : i ≠ j) :
    (kvs.get ⟨i, hi⟩).1 ≠ (kvs.get ⟨j, hj⟩).1 := by
  intro hc
  have hgi : (kvs.map Prod.fst).get ⟨i, by simpa⟩ = (kvs.get ⟨i, hi⟩).1 := by
    simp
  have hgj : (kvs.map Prod.fst).get ⟨j, by simpa⟩ = (kvs.get ⟨j, hj⟩).1 := by
    simp
  have heq : (kvs.map Prod.fst).get ⟨i, by simpa⟩ = (kvs.map Prod.fst).get ⟨j, by simpa⟩ := by
    rw [hgi, hgj, hc]
  have := (List.Nodup.get_inj_iff hnd).mp heq
  exact hij (by simpa using congrArg Fin.val this)

/-! ### The claims -/

/-- The state reached by `New(3); Put(0,10); Put(1,20); Get(0); Clear()`:
the `Get` queued a recency event for the element of key `0`, and the
`Clear` ran before the tracker drained it. -/
def staleTrace : Memoria Nat Nat :=
  Clear (Get 0 (Put 1 20 (Put 0 10 (initCache 3)))).2

/-- C1: refuted — the tracker does NOT silently ignore a stale event.
On `staleTrace` the queued handle `0` names an element that `Clear`
removed from the List and the Index (`Init` left its `list` field and
its stale `prev` pointer intact, so `ele.Prev() != nil` passes), yet the
event-processing step relinks it: before the step the List is empty
(`root.next = root`) and the Index is empty, after the step the List
physically starts at node `0` while the Index is still empty, so the
correspondence between the node set of the List and the value set of
the Index is corrupted.  A subsequent `Put(2,30)` then observes the
corruption: `Keys` reports two entries `[0, 2]` while `Len` reports `1`
and key `0` is absent from the Index. -/
theorem claim_C1_stale_event_corrupts_list :
    staleTrace.ch = [0] ∧
    staleTrace.dict = [] ∧
    staleTrace.rootNext = Ptr.root ∧
    staleTrace.rootPrev = Ptr.root ∧
    staleTrace.llen = 0 ∧
    (processOneEvent staleTrace).dict = [] ∧
    (processOneEvent staleTrace).rootNext = Ptr.node 0 ∧
    (processOneEvent staleTrace).rootPrev = Ptr.node 0 ∧
    (getE (processOneEvent staleTrace) 0).inList = true ∧
    Keys (Put 2 30 (processOneEvent staleTrace)) = [0, 2] ∧
    Len (Put 2 30 (processOneEvent staleTrace)) = 1 ∧
    dlookup 0 (Put 2 30 (processOneEvent staleTrace)).dict = none := by
  decide

/-- The state reached by `New(2); Put(5,50); Put(6,60); Get(5); Clear()`:
a queued recency event for the (cleared) element of key `5` is pending. -/
def staleTrace2 : Memoria Nat Nat :=
  Clear (Get 5 (Put 6 60 (Put 5 50 (initCache 2)))).2

/-- C2: refuted — the tracker step does NOT preserve the structural
invariant.  The invariant `Wf` (List node set = Index value set, list
length = index size = reported length) holds on `staleTrace2` with the
empty chain, and the cache is open; the event-processing step then
leaves a state whose List is physically non-empty (`root.next` is node
`0`) while its internal length is `0` and its Index is empty — no chain
can represent that state.  After a further `Put(7,70)` the corruption
is observable at the API: `Keys` enumerates two entries `[5, 7]` while
`Len()` is `1`, the Index holds one binding, and key `5` is absent. -/
theorem claim_C2_tracker_step_breaks_invariant :
    Wf staleTrace2 [] ∧
    IsOpen staleTrace2 ∧
    (processOneEvent staleTrace2).llen = 0 ∧
    (processOneEvent staleTrace2).rootNext = Ptr.node 0 ∧
    (processOneEvent staleTrace2).dict = [] ∧
    Len (Put 7 70 (processOneEvent staleTrace2)) = 1 ∧
    (Put 7 70 (processOneEvent staleTrace2)).dict.length = 1 ∧
    Keys (Put 7 70 (processOneEvent staleTrace2)) = [5, 7] ∧
    dlookup 5 (Put 7 70 (processOneEvent staleTrace2)).dict = none := by
  decide

/-- C3: for every capacity `n > 0`, `Put`-ing `n + 1` pairwise distinct
keys in order into a fresh open cache (no intervening `Get`) makes
`New` succeed, leaves `Len() = n`, and exactly the first-inserted key
is absent (`Get` on it returns the zero value and `false`) while every
other inserted key is present with its value. -/
theorem claim_C3_overflow_evicts_first_key (n : Nat) (hn : 0 < n) (kvs : List (K × V))
    (hlen : kvs.length = n + 1) (hnd : (kvs.map Prod.fst).Nodup) :
    New (K := K) (V := V) (n : Int) = Except.ok (initCache (n : Int)) ∧
    Len (putAll kvs (initCache (n : Int))) = (n : Int) ∧
    (∀ i, (hi : i < kvs.length) →
      (Get (kvs.get ⟨i, hi⟩).1 (putAll kvs (initCache (n : Int)))).1 =
        if i = 0 then (default, false) else ((kvs.get ⟨i, hi⟩).2, true)) := by
  rcases List.eq_nil_or_concat kvs with hnil | ⟨l, kv, heq⟩
  · subst hnil
    simp at hlen
  rw [List.concat_eq_append] at heq
  subst heq
  have hllen : l.length = n := by
    simp only [List.length_append, List.length_singleton] at hlen
    omega
  have hndl : (l.map Prod.fst).Nodup := by
    rw [List.map_append, List.nodup_append] at hnd
    exact hnd.1
  obtain ⟨hwf, hcap, hclosed, hdone, halen, hkvs⟩ :=
    putAll_inv (K := K) (V := V) (n : Int) l hndl (by omega)
  have hfr : dlookup kv.1 (putAll l (initCache (K := K) (V := V) (n : Int))).dict = none := by
    apply hwf.lookup_none_of
    intro h hmem
    have hhlt : h < l.length := by
      rw [List.mem_reverse, List.mem_range] at hmem
      exact hmem
    rw [(hkvs h hhlt).1]
    intro hcon
    rw [List.map_append, List.nodup_append] at hnd
    have hmemk : kv.1 ∈ l.map Prod.fst := by
      rw [← hcon]
      exact List.mem_map_of_mem _ (l.get_mem _ _)
    exact hnd.2.2 hmemk (by simp)
  have hover : (putAll l (initCache (K := K) (V := V) (n : Int))).capacity <
      (((List.range l.length).reverse.length : Nat) : Int) + 1 := by
    rw [hcap]
    simp only [List.length_reverse, List.length_range, hllen]
    omega
  have hput : putAll (l ++ [kv]) (initCache (K := K) (V := V) (n : Int)) =
      evict (insState (putAll l (initCache (K := K) (V := V) (n : Int))) kv.1 kv.2) := by
    rw [putAll_append_singleton]
    exact Put_fresh_evict _ _ _ _ hwf hclosed hfr hover
  obtain ⟨wI, hdictI, hkeyI, hvalI, hpresI⟩ :=
    Wf_insState (putAll l (initCache (K := K) (V := V) (n : Int))) _ kv.1 kv.2 hwf hfr
  obtain ⟨hcapI, hclI, hdoI, _, _, _, hlenI, _, halenI, _⟩ :=
    insState_basic (putAll l (initCache (K := K) (V := V) (n : Int))) kv.1 kv.2
  rw [halen] at hkeyI hvalI
  have hchain : (List.range l.length).reverse =
      ((List.range (n - 1)).map Nat.succ).reverse ++ [0] := by
    have hl1 : l.length = (n - 1) + 1 := by omega
    rw [hl1, List.range_succ_eq_map, List.reverse_cons]
  have wI' : Wf (insState (putAll l (initCache (K := K) (V := V) (n : Int))) kv.1 kv.2)
      (((putAll l (initCache (K := K) (V := V) (n : Int))).arena.length ::
        ((List.range (n - 1)).map Nat.succ).reverse) ++ [0]) := by
    rw [List.cons_append, ← hchain]
    exact wI
  obtain ⟨wE, hdictE, hlenE, hpresE, hcapE, hclE, hdoE, hchE, honE, hstE, halenE⟩ :=
    Wf_evict (insState (putAll l (initCache (K := K) (V := V) (n : Int))) kv.1 kv.2)
      ((putAll l (initCache (K := K) (V := V) (n : Int))).arena.length ::
        ((List.range (n - 1)).map Nat.succ).reverse) 0 wI'
  have hFclosed : (evict (insState (putAll l (initCache (K := K) (V := V) (n : Int)))
      kv.1 kv.2)).closed = false := by
    rw [hclE, hclI, hclosed]
  have hFdone : (evict (insState (putAll l (initCache (K := K) (V := V) (n : Int)))
      kv.1 kv.2)).doneClosed = false := by
    rw [hdoE, hdoI, hdone]
  -- the key and the value stored at each surviving handle
  have hkeyF : ∀ j, (hj : j < (l ++ [kv]).length) → 0 < j →
      (getE (evict (insState (putAll l (initCache (K := K) (V := V) (n : Int)))
        kv.1 kv.2)) j).key = ((l ++ [kv]).get ⟨j, hj⟩).1 ∧
      (getE (evict (insState (putAll l (initCache (K := K) (V := V) (n : Int)))
        kv.1 kv.2)) j).value = ((l ++ [kv]).get ⟨j, hj⟩).2 := by
    intro j hj hpos
    have hj' : j < l.length + 1 := by simpa using hj
    have hj0 : j ≠ 0 := by omega
    rcases Decidable.em (j = l.length) with heq | hne
    · subst heq
      have hgetl : ((l ++ [kv]).get ⟨l.length, hj⟩) = kv := by
        simp
      rw [hgetl]
      rw [(hpresE _ hj0).1, (hpresE _ hj0).2, hkeyI, hvalI]
      exact ⟨rfl, rfl⟩
    · have hjlt : j < l.length := by omega
      have hjne : j ≠ (putAll l (initCache (K := K) (V := V) (n : Int))).arena.length := by
        rw [halen]
        exact hne
      have hgeta : ((l ++ [kv]).get ⟨j, hj⟩) = l.get ⟨j, hjlt⟩ := by
        simp only [List.get_eq_getElem]
        exact List.getElem_append_left hjlt
      rw [hgeta]
      rw [(hpresE _ hj0).1, (hpresE _ hj0).2, (hpresI j hjne).1, (hpresI j hjne).2,
        (hkvs j hjlt).1, (hkvs j hjlt).2]
      exact ⟨rfl, rfl⟩
  refine ⟨New_pos (n : Int) (by omega), ?_, ?_⟩
  · rw [hput]
    show (evict (insState (putAll l (initCache (K := K) (V := V) (n : Int)))
      kv.1 kv.2)).len = (n : Int)
    have hSlen : (putAll l (initCache (K := K) (V := V) (n : Int))).len =
        ((l.length : Nat) : Int) := by
      rw [hwf.2.2.2.2.2.1]
      simp
    rw [hlenE, hlenI, hSlen, hllen]
    ring
  · intro i hi
    rw [hput]
    have hi' : i < l.length + 1 := by simpa using hi
    rcases Decidable.em (i = 0) with heq | hne
    · subst heq
      rw [if_pos rfl]
      -- the first-inserted key was evicted: it is absent from the Index
      have habsent : dlookup ((l ++ [kv]).get ⟨0, hi⟩).1
          (evict (insState (putAll l (initCache (K := K) (V := V) (n : Int)))
            kv.1 kv.2)).dict = none := by
        apply wE.lookup_none_of
        intro h hmem
        have hh : 0 < h ∧ h < (l ++ [kv]).length := by
          rcases List.mem_cons.mp hmem with hc | hc
          · rw [hc, halen, hllen]
            simp only [List.length_append, List.length_singleton]
            omega
          · rw [List.mem_reverse, List.mem_map] at hc
            obtain ⟨j, hj, hji⟩ := hc
            rw [List.mem_range] at hj
            simp only [List.length_append, List.length_singleton]
            omega
        rw [(hkeyF h hh.2 hh.1).1]
        exact keys_nodup_get_ne (l ++ [kv]) hnd h 0 hh.2 hi (by omega)
      exact (Get_none _ _ hFclosed habsent).1
    · rw [if_neg hne]
      have hpos : 0 < i := by omega
      -- handle i is still linked: it is the head or an interior element
      have hmemF : i ∈ ((putAll l (initCache (K := K) (V := V) (n : Int))).arena.length ::
          ((List.range (n - 1)).map Nat.succ).reverse) := by
        rcases Decidable.em (i = l.length) with heqi | hnei
        · rw [halen, heqi]
          exact List.mem_cons_self _ _
        · have hilt : i < l.length := by omega
          apply List.mem_cons_of_mem
          rw [List.mem_reverse, List.mem_map]
          exact ⟨i - 1, by rw [List.mem_range]; omega, by omega⟩
      have hlkF := wE.lookup_of_mem hmemF
      rw [(hkeyF i hi hpos).1] at hlkF
      rw [Get_found _ _ i hFclosed hFdone hlkF, (hkeyF i hi hpos).2]

/-- C3 witness: capacity `1`, keys `0` then `1`; the cache keeps key `1`
with its value and reports length `1`, and key `0` is gone. -/
theorem claim_C3_overflow_witness :
    Len (putAll [((0 : Nat), (10 : Nat)), (1, 11)] (initCache ((1 : Nat) : Int))) =
      ((1 : Nat) : Int) ∧
    (Get 0 (putAll [((0 : Nat), (10 : Nat)), (1, 11)] (initCache ((1 : Nat) : Int)))).1 =
      (default, false) ∧
    (Get 1 (putAll [((0 : Nat), (10 : Nat)), (1, 11)] (initCache ((1 : Nat) : Int)))).1 =
      (11, true) := by
  have h := claim_C3_overflow_evicts_first_key 1 (by decide)
    [((0 : Nat), (10 : Nat)), (1, 11)] (by decide) (by decide)
  refine ⟨h.2.1, ?_, ?_⟩
  · have h0 := h.2.2 0 (by decide)
    simpa using h0
  · have h1 := h.2.2 1 (by decide)
    simpa using h1

/-- A closed cache that still holds key `0` with value `1`. -/
def closedCache : Memoria Nat Nat := Close (Put 0 1 (initCache 2))

/-- C4 counterexample: on a CLOSED cache holding key `0` with value `1`,
`Get 0` returns the zero value and `false` — not the found value — so
the clause "when the cache is closed it returns the found value without
enqueuing" does not match the code, which returns early with
`(zero, false)` whenever `closed` is set. -/
theorem claim_C4_closed_get_counterexample :
    closedCache.closed = true ∧
    dlookup 0 closedCache.dict = some 0 ∧
    (getE closedCache 0).value = 1 ∧
    (Get 0 closedCache).1 = (0, false) := by
  decide

/-- C4 amended: on an OPEN cache (closed flag unset, shutdown not
signalled), `Get` of a present key returns the stored value and `true`
regardless of whether the recency-event enqueue succeeded — the event
is enqueued when the queue has space and skipped silently when it is
full; on a closed cache `Get` instead returns the zero value and
`false` without touching the state. -/
theorem claim_C4_get_best_effort (s : Memoria K V) (k : K) :
    (∀ h, s.closed = false → s.doneClosed = false → dlookup k s.dict = some h →
      (Get k s).1 = ((getE s h).value, true) ∧
      (s.ch.length < chanCap → (Get k s).2 = { s with ch := s.ch ++ [h] }) ∧
      (chanCap ≤ s.ch.length → (Get k s).2 = s)) ∧
    (s.closed = true → (Get k s).1 = (default, false) ∧ (Get k s).2 = s) := by
  constructor
  · intro h hc hd hl
    refine ⟨Get_found s k h hc hd hl, ?_, ?_⟩
    · intro hch
      simp [Get, hc, hd, hl, hch]
    · intro hch
      have hnot : ¬ s.ch.length < chanCap := by omega
      simp [Get, hc, hd, hl, hnot]
  · intro hc
    exact Get_closed s k hc

/-- C4 witness: a concrete open cache where `Get` finds the stored value. -/
theorem claim_C4_get_best_effort_witness :
    (Get 0 (Put 0 7 (initCache (K := Nat) (V := Nat) 2))).1 = (7, true) := by
  have h := (claim_C4_get_best_effort (Put 0 7 (initCache 2)) 0).1 0
    (by decide) (by decide) (by decide)
  rw [h.1]
  decide

/-- C5: `Keys` returns the keys of the current entries ordered from the
tail to the head of the Recency List (on every well-formed open cache
it is the chain reversed, least-recently-used first); in particular on
a capacity-3 cache after `Put 0, Put 1, Put 2` and a `Get 0` whose
recency event the tracker has fully drained, `Keys = [1, 2, 0]`. -/
theorem claim_C5_keys_tail_to_head :
    (∀ (s : Memoria K V) (hs : List Nat), Wf s hs → s.closed = false →
      Keys s = (hs.reverse).map (fun h => (getE s h).key)) ∧
    Keys (Put 2 3 (Put 1 2 (Put 0 1 (initCache (K := Nat) (V := Nat) 3)))) = [0, 1, 2] ∧
    (Get 0 (Put 2 3 (Put 1 2 (Put 0 1 (initCache (K := Nat) (V := Nat) 3))))).1 = (1, true) ∧
    (processOneEvent
      (Get 0 (Put 2 3 (Put 1 2 (Put 0 1 (initCache (K := Nat) (V := Nat) 3))))).2).ch = [] ∧
    Keys (processOneEvent
      (Get 0 (Put 2 3 (Put 1 2 (Put 0 1 (initCache (K := Nat) (V := Nat) 3))))).2) =
      [1, 2, 0] ∧
    Len (processOneEvent
      (Get 0 (Put 2 3 (Put 1 2 (Put 0 1 (initCache (K := Nat) (V := Nat) 3))))).2) = 3 := by
  refine ⟨fun s hs w hc => Keys_of_Wf s hs w hc, ?_, ?_, ?_, ?_, ?_⟩ <;> decide

/-- C6: `Put` of a key already present in a well-formed open cache
keeps `Len` unchanged, makes a subsequent `Get` of that key return the
new value, and synchronously moves the key to the most-recently-used
position: it is the last element of `Keys` immediately after `Put`. -/
theorem claim_C6_put_existing_updates_and_promotes (s : Memoria K V) (hs : List Nat)
    (k : K) (v : V) (h : Nat)
    (w : Wf s hs) (hc : s.closed = false) (hd : s.doneClosed = false)
    (hl : dlookup k s.dict = some h) :
    Len (Put k v s) = Len s ∧
    (Get k (Put k v s)).1 = (v, true) ∧
    (Keys (Put k v s)).getLast? = some k := by
  obtain ⟨hmem, hkey⟩ := w.lookup_some hl
  obtain ⟨wmv, hdictm, hlenm, hcapm, hclm, hdom, hchm, honm, hstm, halm, hkvm⟩ :=
    Wf_moveToFront s hs h w hmem
  have hb : h < (moveToFront s h).arena.length := by
    rw [halm]
    exact w.2.2.1 h hmem
  obtain ⟨wsv, hdictv, hlenv, hvalv, hkeyv⟩ :=
    Wf_setValue (moveToFront s h) (h :: hs.erase h) h v wmv hb
  rw [Put_eq_of_existing s k v h hc hl]
  have hcF : (setE (moveToFront s h) h
      { getE (moveToFront s h) h with value := v }).closed = false := by
    rw [setE_closed, hclm, hc]
  have hdF : (setE (moveToFront s h) h
      { getE (moveToFront s h) h with value := v }).doneClosed = false := by
    rw [setE_doneClosed, hdom, hd]
  refine ⟨?_, ?_, ?_⟩
  · show (setE (moveToFront s h) h { getE (moveToFront s h) h with value := v }).len = s.len
    rw [hlenv, hlenm]
  · have hlk : dlookup k (setE (moveToFront s h) h
        { getE (moveToFront s h) h with value := v }).dict = some h := by
      rw [hdictv, hdictm]
      exact hl
    rw [Get_found _ k h hcF hdF hlk, hvalv]
  · rw [Keys_of_Wf _ (h :: hs.erase h) wsv hcF]
    rw [List.reverse_cons, List.map_append]
    simp only [List.map_cons, List.map_nil]
    rw [List.getLast?_concat]
    rw [hkeyv h, (hkvm h).1, hkey]

/-- C6 witness: overwriting key `0` on a one-entry cache keeps the
length, serves the new value `9`, and leaves `0` most recently used. -/
theorem claim_C6_put_existing_witness :
    Len (Put 0 9 (Put 0 5 (initCache (K := Nat) (V := Nat) 2))) =
      Len (Put 0 5 (initCache (K := Nat) (V := Nat) 2)) ∧
    (Get 0 (Put 0 9 (Put 0 5 (initCache (K := Nat) (V := Nat) 2)))).1 = (9, true) ∧
    (Keys (Put 0 9 (Put 0 5 (initCache (K := Nat) (V := Nat) 2)))).getLast? = some 0 :=
  claim_C6_put_existing_updates_and_promotes (Put 0 5 (initCache 2)) [0] 0 9 0
    (by decide) (by decide) (by decide) (by decide)

/-- C7: `Close` is idempotent — on every cache state a second `Close`
returns exactly the state the first one left (so every later `Get`,
`Put`, `Clear`, `Len`, `Keys` observes the same cache), and the
`sync.Once` guard has fired after the first call, so the shutdown body
runs exactly once. -/
theorem claim_C7_close_idempotent (s : Memoria K V) :
    Close (Close s) = Close s ∧ (Close s).onceDone = true := by
  cases ho : s.onceDone with
  | true => exact ⟨by simp [Close, ho], by simp [Close, ho]⟩
  | false => exact ⟨by simp [Close, ho], by simp [Close, ho]⟩

/-- C8: `Get` mutates neither the Key Index nor the Recency List — on
every state and key it leaves the index, the element arena (hence all
stored values and links), the sentinel pointers, the list length and
the entry count untouched (it only appends to the recency-event
channel), and on an absent key it leaves the whole state unchanged. -/
theorem claim_C8_get_read_only (s : Memoria K V) (k : K) :
    (Get k s).2.dict = s.dict ∧
    (Get k s).2.arena = s.arena ∧
    (Get k s).2.rootNext = s.rootNext ∧
    (Get k s).2.rootPrev = s.rootPrev ∧
    (Get k s).2.llen = s.llen ∧
    (Get k s).2.len = s.len ∧
    (dlookup k s.dict = none → (Get k s).2 = s) := by
  cases hc : s.closed with
  | true => simp [Get, hc]
  | false =>
    cases hl : dlookup k s.dict with
    | none => simp [Get, hc, hl]
    | some h =>
      cases hd : s.doneClosed with
      | true => simp [Get, hc, hl, hd]
      | false =>
        rcases Decidable.em (s.ch.length < chanCap) with hch | hch
        · simp [Get, hc, hl, hd, hch]
        · simp [Get, hc, hl, hd, hch]

/-- C9: `Put` of a new key never evicts the key just inserted — in a
well-formed open cache with capacity at least `1` and `k` absent,
`Get k` immediately after `Put k v` returns `(v, true)`: the new
element is inserted at the head and the capacity check can only evict
the tail, which is a previously present element. -/
theorem claim_C9_put_keeps_inserted_key (s : Memoria K V) (hs : List Nat) (k : K) (v : V)
    (w : Wf s hs) (hc : s.closed = false) (hd : s.doneClosed = false)
    (hcap : 1 ≤ s.capacity) (hl : dlookup k s.dict = none) :
    (Get k (Put k v s)).1 = (v, true) := by
  obtain ⟨wI, hdictI, hkeyI, hvalI, hpresI⟩ := Wf_insState s hs k v w hl
  obtain ⟨hcapI, hclI, hdoI, _, _, _, _, _, halenI, _⟩ := insState_basic s k v
  rcases Decidable.em (s.capacity < (hs.length : Int) + 1) with hover | hunder
  · -- the insertion overflows: the tail of the old chain is evicted
    have hsne : hs ≠ [] := by
      intro hnil
      subst hnil
      simp at hover
      omega
    rcases List.eq_nil_or_concat hs with hnil | ⟨init, b, heq⟩
    · exact absurd hnil hsne
    rw [List.concat_eq_append] at heq
    subst heq
    have hput : Put k v s = evict (insState s k v) :=
      Put_fresh_evict s (init ++ [b]) k v w hc hl hover
    have wI' : Wf (insState s k v) ((s.arena.length :: init) ++ [b]) := by
      rw [List.cons_append]
      exact wI
    obtain ⟨wE, hdictE, hlenE, hpresE, hcapE, hclE, hdoE, hchE, honE, hstE, halenE⟩ :=
      Wf_evict (insState s k v) (s.arena.length :: init) b wI'
    have hbn : b ≠ s.arena.length := by
      have := w.2.2.1 b (by simp)
      omega
    have hnb : s.arena.length ≠ b := fun hcon => hbn hcon.symm
    have hlkF : dlookup k (evict (insState s k v)).dict = some s.arena.length := by
      have hmem : s.arena.length ∈ (s.arena.length :: init) := List.mem_cons_self _ _
      have := wE.lookup_of_mem hmem
      rw [(hpresE _ hnb).1, hkeyI] at this
      exact this
    rw [hput]
    rw [Get_found _ k s.arena.length (by rw [hclE, hclI, hc]) (by rw [hdoE, hdoI, hd]) hlkF]
    rw [(hpresE _ hnb).2, hvalI]
  · -- within capacity: no eviction at all
    have hput : Put k v s = insState s k v :=
      Put_fresh_no_evict s hs k v w hc hl (by omega)
    have hlkF : dlookup k (insState s k v).dict = some s.arena.length := by
      have := wI.lookup_of_mem (List.mem_cons_self _ _)
      rw [hkeyI] at this
      exact this
    rw [hput]
    rw [Get_found _ k s.arena.length (by rw [hclI, hc]) (by rw [hdoI, hd]) hlkF, hvalI]

/-- C9 witness: capacity `1`, key `0` present; `Put 1 7` evicts `0`,
not the freshly inserted `1`, and `Get 1` returns `(7, true)`. -/
theorem claim_C9_put_keeps_inserted_key_witness :
    (Get 1 (Put 1 7 (Put 0 5 (initCache (K := Nat) (V := Nat) 1)))).1 = (7, true) :=
  claim_C9_put_keeps_inserted_key (Put 0 5 (initCache 1)) [0] 1 7
    (by decide) (by decide) (by decide) (by decide) (by decide)

/-- C10: after `Close`, `Keys` returns the empty sequence on every
cache state, even when entries were present at the moment of closing.
(The hypothesis states the `sync.Once` discipline every reachable state
satisfies: the once guard only fires together with the closed flag.) -/
theorem claim_C10_keys_empty_after_close (s : Memoria K V)
    (h : s.onceDone = true → s.closed = true) :
    Keys (Close s) = [] := by
  cases ho : s.onceDone with
  | true =>
      have hc : s.closed = true := h ho
      simp [Close, ho, Keys, hc]
  | false => simp [Close, ho, Keys]

/-- C10 witness: closing a cache that still holds an entry. -/
theorem claim_C10_keys_empty_after_close_witness :
    Keys (Close (Put 0 1 (initCache (K := Nat) (V := Nat) 2))) = [] :=
  claim_C10_keys_empty_after_close (Put 0 1 (initCache 2)) (by decide)

end LruSpec
